import Mathlib

/-!
Verification development for the QuantumFlow plan-execution engine.

The definitions below are a shallow embedding of the Go sources:
`internal/agent/executor.go` (Executor.Execute, executePhase,
processFileBlocks, processCommandBlocks, isDangerousCommand,
areDependenciesMet, buildPhaseQuery, initProjectStructure,
createCheckpoint), `internal/agent/plan_types.go` (the plan data
model), `internal/agent/project_state.go` (ProjectManifest) and
`internal/agent/approval.go` (SavePlanState / LoadPlanState).

Modelling conventions:
* Go strings are Lean `String`s; the handful of `strings` / `path/filepath`
  library functions the code uses are re-implemented below on `List Char`
  by structural recursion so that concrete runs reduce inside the kernel.
* Machine integers are `Int` / `Nat` (no overflow is relevant anywhere).
* Effects are made explicit: the filesystem is a trace (`FS`), the clock,
  the agent backend, the regex extraction of fenced blocks, and the
  success / failure of `os.MkdirAll`, `os.WriteFile` and `exec.Command`
  are supplied by an `Env` of oracles.  Fallible Go functions return an
  `Option String` error component, mirroring Go's `error` results.
* Go `nil` slices/maps are conflated with empty ones; `*T` is `Option`.
* An out-of-range list index (which would panic in Go) is modelled with
  `List.get?`; the executor only ever indexes in range.
-/

namespace QuantumFlow

/-! ## String helpers (models of Go `strings` / `path/filepath`) -/

/-- Split a character list at every occurrence of `sep`
(model of `strings.Split` for a one-character separator). -/
def charsSplitOn (sep : Char) : List Char → List (List Char)
  | [] => [[]]
  | c :: rest =>
    let r := charsSplitOn sep rest
    if c = sep then [] :: r
    else
      match r with
      | g :: gs => (c :: g) :: gs
      | [] => [[c]]

/-- Split a string on a one-character separator. -/
def strSplitOnChar (sep : Char) (s : String) : List String :=
  (charsSplitOn sep s.toList).map (fun cs => String.mk cs)

/-- Model of Go `strings.TrimSpace` (ASCII whitespace). -/
def strTrim (s : String) : String :=
  String.mk (((s.toList.dropWhile Char.isWhitespace).reverse.dropWhile Char.isWhitespace).reverse)

/-- Model of Go `strings.HasPrefix`. -/
def strHasPrefix (s pre : String) : Bool :=
  pre.toList.isPrefixOf s.toList

/-- Model of Go `strings.HasSuffix`. -/
def strHasSuffix (s suf : String) : Bool :=
  suf.toList.isSuffixOf s.toList

/-- Substring occurrence test on character lists. -/
def charsInfix (pat : List Char) : List Char → Bool
  | [] => pat.isEmpty
  | c :: rest => pat.isPrefixOf (c :: rest) || charsInfix pat rest

/-- Model of Go `strings.Contains`. -/
def strContains (s pat : String) : Bool :=
  charsInfix pat.toList s.toList

/-- Model of Go `strings.TrimSuffix`. -/
def strTrimSuffix (s suf : String) : String :=
  if strHasSuffix s suf then String.mk (s.toList.take (s.toList.length - suf.toList.length)) else s

/-- Join strings with a separator (model of `strings.Join`). -/
def strJoin (sep : String) : List String → String
  | [] => ""
  | x :: rest => rest.foldl (fun acc y => acc ++ sep ++ y) x

/-- One step of the `filepath.Clean` element stack (Go's lexical algorithm):
`""` and `"."` are dropped, `".."` pops a poppable element (or is kept /
dropped at the root depending on `rooted`), anything else is pushed. -/
def cleanStep (rooted : Bool) (st : List String) (c : String) : List String :=
  if c = "" ∨ c = "." then st
  else if c = ".." then
    match st with
    | [] => if rooted then [] else [".."]
    | top :: rest => if top = ".." then ".." :: top :: rest else rest
  else c :: st

/-- Model of Go `path/filepath.Clean` (Unix rules). -/
def goClean (path : String) : String :=
  if path = "" then "."
  else
    let rooted := strHasPrefix path "/"
    let comps := strSplitOnChar '/' path
    let stack := comps.foldl (cleanStep rooted) []
    let parts := stack.reverse
    if parts = [] then (if rooted then "/" else ".")
    else (if rooted then "/" else "") ++ strJoin "/" parts

/-- Model of Go `path/filepath.Dir`: everything up to and including the last
slash, cleaned; `"."` when there is no slash. -/
def goDir (p : String) : String :=
  goClean (String.mk ((p.toList.reverse.dropWhile (fun c => c ≠ '/')).reverse))

/-- Model of Go `path/filepath.Base`. -/
def goBase (p : String) : String :=
  if p = "" then "."
  else
    let cs := (p.toList.reverse.dropWhile (fun c => c = '/')).reverse
    let base := (cs.reverse.takeWhile (fun c => c ≠ '/')).reverse
    if base = [] then "/" else String.mk base

/-! ## Data model (`plan_types.go`, `project_state.go`) -/

/-- `PhaseStatus` (`plan_types.go`). -/
inductive PhaseStatus where
  | pending
  | inProgress
  | completed
  | failed
  | skipped
deriving DecidableEq, Repr

/-- `ExecutionStatus` (`plan_types.go`). -/
inductive ExecutionStatus where
  | pending
  | approved
  | running
  | completed
  | failed
  | cancelled
deriving DecidableEq, Repr

/-- `Task` (`plan_types.go`). -/
structure Task where
  id : String
  description : String
  completed : Bool
  result : String
  error : String
deriving DecidableEq, Repr

/-- `Phase` (`plan_types.go`); `agent` is Go's string-typed `AgentType`. -/
structure Phase where
  id : String
  name : String
  agent : String
  tasks : List Task
  successCriteria : String
  estimatedTime : String
  dependencies : List String
  status : PhaseStatus
deriving DecidableEq, Repr

/-- `ExecutionState` (`plan_types.go`); times are opaque `Int` ticks. -/
structure ExecutionState where
  status : ExecutionStatus
  currentPhase : Int
  completedPhases : List Int
  failedPhases : List Int
  lastCheckpoint : String
  startedAt : Option Int
  completedAt : Option Int
deriving DecidableEq, Repr

/-- `FileEntry` (`project_state.go`). -/
structure FileEntry where
  path : String
  phase : String
  purpose : String
  size : Int
  createdAt : Int
deriving DecidableEq, Repr

/-- `ProjectManifest` (`project_state.go`); the `fileStructure` map is an
association list (Go map iteration order is abstracted as list order). -/
structure ProjectManifest where
  projectName : String
  baseDir : String
  createdFiles : List FileEntry
  fileStructure : List (String × List String)
deriving DecidableEq, Repr

/-- `ExecutionPlan` (`plan_types.go`); `manifest` is the runtime-only field
(`json:"-"`), modelled as `Option` like the Go pointer. -/
structure ExecutionPlan where
  id : String
  title : String
  description : String
  fileStructure : List (String × List String)
  phases : List Phase
  state : ExecutionState
  manifest : Option ProjectManifest
  createdAt : Int
  updatedAt : Int
deriving DecidableEq, Repr

/-- `Checkpoint` (`plan_types.go`). -/
structure Checkpoint where
  id : String
  planId : String
  phaseIndex : Nat
  timestamp : Int
  metadata : List (String × String)
deriving DecidableEq, Repr

/-! ## Effect model -/

/-- The filesystem effects of a run: a trace of successful `os.WriteFile`
calls and of successfully created directories. -/
structure FS where
  files : List (String × String)
  dirs : List String
deriving DecidableEq, Repr

/-- One file-block match extracted by the regexes of `processFileBlocks`:
submatch 1 (language), 2 (filename), 3 (content). -/
structure FileMatch where
  lang : String
  filename : String
  content : String
deriving DecidableEq, Repr

/-- The environment of a run: the clock, the registered agent types of the
orchestrator, the agent backend, the regex engine (extraction of file and
command fenced blocks from an answer), and failure oracles for directory
creation, file writes, `os.Stat` sizes and shell commands. -/
structure Env where
  now : Int
  agents : List String
  agentExec : Nat → String → Except String String
  fileMatches : String → List FileMatch
  cmdBlocks : String → List String
  mkdirFail : String → Bool
  writeFail : String → Bool
  statSize : String → Int
  runCmdOk : String → Bool

/-! ## ProjectManifest operations (`project_state.go`) -/

/-- `NewProjectManifest`. -/
def NewProjectManifest (projectName baseDir : String) : ProjectManifest :=
  { projectName := projectName
    baseDir := baseDir
    createdFiles := []
    fileStructure := [] }

/-- Go's `m.FileStructure[dir] = append(m.FileStructure[dir], base)` on the
association-list model of the map. -/
def mapAppend (m : List (String × List String)) (k v : String) : List (String × List String) :=
  match m with
  | [] => [(k, [v])]
  | (k', vs) :: rest => if k' = k then (k', vs ++ [v]) :: rest else (k', vs) :: mapAppend rest k v

/-- `ProjectManifest.AddFile`: stat the file for its size, append a
`FileEntry`, and record the basename under its directory. -/
def ProjectManifest.AddFile (env : Env) (m : ProjectManifest) (path phase purpose : String) :
    ProjectManifest :=
  let entry : FileEntry :=
    { path := path, phase := phase, purpose := purpose
      size := env.statSize path, createdAt := env.now }
  let dir0 := goDir path
  let dir := if dir0 = "" ∨ dir0 = "." then m.baseDir else dir0
  { m with
    createdFiles := m.createdFiles ++ [entry]
    fileStructure := mapAppend m.fileStructure dir (goBase path) }

/-- `ProjectManifest.FileExists`: linear scan over `createdFiles`. -/
def ProjectManifest.FileExists (m : ProjectManifest) (path : String) : Bool :=
  m.createdFiles.any (fun f => f.path == path)

/-- `ProjectManifest.GetCreatedFilesForContext`. -/
def ProjectManifest.GetCreatedFilesForContext (m : ProjectManifest) : String :=
  if m.createdFiles.isEmpty then ""
  else
    m.createdFiles.foldl
      (fun acc f => acc ++ "  - " ++ f.path ++ " (phase: " ++ f.phase ++ ")\n")
      "ALREADY CREATED FILES (do NOT overwrite):\n"

/-- `ProjectManifest.GetFileStructureForContext`. -/
def ProjectManifest.GetFileStructureForContext (m : ProjectManifest) : String :=
  if m.fileStructure.isEmpty then ""
  else
    m.fileStructure.foldl
      (fun acc df =>
        df.2.foldl (fun a f => a ++ "    - " ++ f ++ "\n") (acc ++ "  " ++ df.1 ++ "/\n"))
      "PROJECT FILE STRUCTURE:\n"

/-! ## Command safety (`executor.go`) -/

/-- `isDangerousCommand`: substring check against the denylist; the
fork-bomb braces are written with hex escapes. -/
def isDangerousCommand (cmd : String) : Bool :=
  ["rm -rf /", "rm -rf ~", ":()\x7b :|:& \x7d;:"].any (fun d => strContains cmd d)

/-! ## File extraction (`Executor.processFileBlocks`) -/

/-- Result of `processFileBlocks`: the `filesCreated` return value, the Go
`error` return value, the updated manifest and the updated filesystem. -/
structure PFBResult where
  filesCreated : List String
  err : Option String
  manifest : Option ProjectManifest
  fs : FS
deriving Repr

/-- Go's `plan.Manifest != nil && plan.Manifest.FileExists(cleanPath)`. -/
def manifestHasFile : Option ProjectManifest → String → Bool
  | some mm, p => mm.FileExists p
  | none, _ => false

/-- The per-match loop body of `processFileBlocks`: trim, reject empty
content, clean the path, reject unsafe paths, reject paths already in the
manifest, create the parent directory when one is needed (failing fast on
a `MkdirAll` error), write the file (failing fast on a write error),
register it with the manifest and record it in `filesCreated`. -/
def pfbLoop (env : Env) (phaseName : String) :
    List FileMatch → List String → Option ProjectManifest → FS → PFBResult
  | [], acc, m, fs => { filesCreated := acc, err := none, manifest := m, fs := fs }
  | mt :: rest, acc, m, fs =>
    let filename := strTrim mt.filename
    let content := strTrim mt.content
    if content = "" then pfbLoop env phaseName rest acc m fs
    else
      let cleanPath := goClean filename
      if strHasPrefix cleanPath ".." ∨ strHasPrefix cleanPath "/" then
        pfbLoop env phaseName rest acc m fs
      else if manifestHasFile m cleanPath then
        pfbLoop env phaseName rest acc m fs
      else
        let dir := goDir cleanPath
        if (dir ≠ "." ∧ dir ≠ "") ∧ env.mkdirFail dir then
          { filesCreated := acc
            err := some ("failed to create directory for " ++ filename)
            manifest := m, fs := fs }
        else
          let fs1 : FS := if dir ≠ "." ∧ dir ≠ "" then { fs with dirs := fs.dirs ++ [dir] }
                          else fs
          if env.writeFail cleanPath then
            { filesCreated := acc, err := some ("failed to write " ++ filename)
              manifest := m, fs := fs1 }
          else
            let fs2 : FS := { fs1 with files := fs1.files ++ [(cleanPath, content)] }
            let m1 := m.map (fun mm => mm.AddFile env cleanPath phaseName "")
            pfbLoop env phaseName rest (acc ++ [cleanPath]) m1 fs2

/-- `Executor.processFileBlocks`: the regex matching is delegated to
`env.fileMatches` (both patterns, in order); the loop is `pfbLoop`. -/
def processFileBlocks (env : Env) (response : String) (manifest : Option ProjectManifest)
    (phaseName : String) (fs : FS) : PFBResult :=
  pfbLoop env phaseName (env.fileMatches response) [] manifest fs

/-! ## Command extraction (`Executor.processCommandBlocks`) -/

/-- The per-line loop of `processCommandBlocks`: trim, skip blank and `#`
lines, skip dangerous commands, execute, abort on the first failure. -/
def pcbLines (env : Env) : List String → List String → List String × Option String
  | [], acc => (acc, none)
  | l :: rest, acc =>
    let cmdStr := strTrim l
    if cmdStr = "" ∨ strHasPrefix cmdStr "#" then pcbLines env rest acc
    else if isDangerousCommand cmdStr then pcbLines env rest acc
    else if env.runCmdOk cmdStr then pcbLines env rest (acc ++ [cmdStr])
    else (acc, some ("failed to execute \x27" ++ cmdStr ++ "\x27"))

/-- The per-block loop of `processCommandBlocks`. -/
def pcbBlocks (env : Env) : List String → List String → List String × Option String
  | [], acc => (acc, none)
  | b :: rest, acc =>
    let script := strTrim b
    if script = "" then pcbBlocks env rest acc
    else
      match pcbLines env (strSplitOnChar '\n' script) acc with
      | (acc1, none) => pcbBlocks env rest acc1
      | (acc1, some e) => (acc1, some e)

/-- `Executor.processCommandBlocks`: the `bash|sh|shell` fence regex is
delegated to `env.cmdBlocks`. -/
def processCommandBlocks (env : Env) (response : String) : List String × Option String :=
  pcbBlocks env (env.cmdBlocks response) []

/-! ## Dependency check (`Executor.areDependenciesMet`) -/

/-- Core of `areDependenciesMet`, a function of the completed-phase indices
and the phase list only.  A negative or out-of-range completed index (which
would panic in Go) matches nothing. -/
def areDependenciesMetCore (completed : List Int) (phases : List Phase) (phase : Phase) : Bool :=
  if phase.dependencies.isEmpty then true
  else
    phase.dependencies.all fun depID =>
      completed.any fun completedIdx =>
        if completedIdx < 0 then false
        else
          match phases.get? completedIdx.toNat with
          | some completedPhase => completedPhase.id == depID || completedPhase.name == depID
          | none => false

/-- `Executor.areDependenciesMet`. -/
def areDependenciesMet (plan : ExecutionPlan) (phase : Phase) : Bool :=
  areDependenciesMetCore plan.state.completedPhases plan.phases phase

/-! ## Phase prompt (`Executor.buildPhaseQuery`) -/

/-- The fixed FILE OUTPUT FORMAT instruction block appended to every phase
query (braces written with hex escapes). -/
def fileOutputFormatBlock : String :=
  "\n\nFILE OUTPUT FORMAT - You MUST use this EXACT format to create files:\n" ++
  "```python ecommerce_api/routes/products.py\n" ++
  "from fastapi import APIRouter\nrouter = APIRouter()\n\n" ++
  "@router.get(\"/products\")\ndef list_products():\n    return \x7b\"products\": []\x7d\n```\n" ++
  "\nRULES:\n" ++
  "1. Every code block MUST have the file path on the SAME LINE as the language\n" ++
  "2. Include ACTUAL CODE in the block, not placeholders\n" ++
  "3. Use FULL relative paths like: ecommerce_api/models/product.py\n" ++
  "4. One file per code block\n"

/-- `Executor.buildPhaseQuery`. -/
def buildPhaseQuery (plan : ExecutionPlan) (phase : Phase) : String :=
  let q := "Phase: " ++ phase.name ++ "\n\n"
  let q :=
    match plan.manifest with
    | some m =>
      let structureCtx := m.GetFileStructureForContext
      let q := if structureCtx ≠ "" then q ++ structureCtx ++ "\n" else q
      let filesCtx := m.GetCreatedFilesForContext
      if filesCtx ≠ "" then q ++ filesCtx ++ "\n" else q
    | none => q
  let q := q ++ "Please complete the following tasks:\n\n"
  let q :=
    (phase.tasks.foldl
      (fun (p : String × Nat) t =>
        (p.1 ++ Nat.repr (p.2 + 1) ++ ". " ++ t.description ++ "\n", p.2 + 1))
      (q, 0)).1
  let q := q ++ "\n\nSuccess Criteria: " ++ phase.successCriteria ++ "\n"
  q ++ fileOutputFormatBlock

/-! ## Project structure creation (`Executor.initProjectStructure`) -/

/-- The directory loop of `initProjectStructure`: skip `"."` and `""`, trim
a trailing slash, `os.MkdirAll`, stop at the first failure. -/
def ipsLoop (env : Env) : List String → FS → FS × Option String
  | [], fs => (fs, none)
  | d :: rest, fs =>
    if d = "." ∨ d = "" then ipsLoop env rest fs
    else
      let cleanDir := strTrimSuffix d "/"
      if env.mkdirFail cleanDir then (fs, some ("failed to create " ++ cleanDir))
      else ipsLoop env rest { fs with dirs := fs.dirs ++ [cleanDir] }

/-- `Executor.initProjectStructure`. -/
def initProjectStructure (env : Env) (plan : ExecutionPlan) (fs : FS) : FS × Option String :=
  if plan.fileStructure = [] then (fs, none)
  else ipsLoop env (plan.fileStructure.map Prod.fst) fs

/-! ## Phase execution (`Executor.executePhase`) -/

/-- Result of one `executePhase` call. -/
structure StepResult where
  plan : ExecutionPlan
  fs : FS
  err : Option String
deriving Repr

/-- Replace phase `i` of a plan (`plan.Phases[i] = ph` through the Go
pointer). -/
def setPhaseAt (plan : ExecutionPlan) (i : Nat) (ph : Phase) : ExecutionPlan :=
  { plan with phases := plan.phases.set i ph }

/-- `Executor.executePhase`: mark the phase in-progress, look up the agent,
run it, extract file and command blocks (their errors are only warnings),
and mark every task completed with the answer as its result.  Shell-command
side effects touch only the outside world and are not part of `FS`. -/
def executePhase (env : Env) (plan : ExecutionPlan) (i : Nat) (fs : FS) : StepResult :=
  match plan.phases.get? i with
  | none => { plan := plan, fs := fs, err := some "phase index out of range" }
  | some ph0 =>
    let ph : Phase := { ph0 with status := PhaseStatus.inProgress }
    let plan1 := setPhaseAt plan i ph
    if (env.agents.contains ph.agent : Bool) = false then
      { plan := plan1, fs := fs, err := some ("agent " ++ ph.agent ++ " not found") }
    else
      let query := buildPhaseQuery plan1 ph
      match env.agentExec i query with
      | Except.error e => { plan := plan1, fs := fs, err := some e }
      | Except.ok answer =>
        let r := processFileBlocks env answer plan1.manifest ph.name fs
        let plan2 := { plan1 with manifest := r.manifest }
        let _cmds := processCommandBlocks env answer
        let ph2 : Phase :=
          { ph with tasks := ph.tasks.map (fun t => { t with completed := true, result := answer }) }
        let plan3 := setPhaseAt plan2 i ph2
        { plan := plan3, fs := r.fs, err := none }

/-! ## The executor main loop (`Executor.Execute`) -/

/-- Result of an `Execute` call: the mutated plan, the filesystem trace, the
checkpoints created during the call, and the returned Go `error`. -/
structure ExecResult where
  plan : ExecutionPlan
  fs : FS
  checkpoints : List Checkpoint
  err : Option String
deriving Repr

/-- The sequential phase loop of `Execute` over the remaining indices:
dependency check, checkpoint, `executePhase`; on failure roll back (a
no-op), mark the plan failed, record the index and return; on success
record the index, advance `currentPhase` and mark the phase completed.
After the loop, mark the plan completed. -/
def executeLoop (env : Env) : List Nat → ExecutionPlan → FS → List Checkpoint → ExecResult
  | [], plan, fs, cps =>
    let st := { plan.state with
                status := ExecutionStatus.completed
                completedAt := some env.now }
    { plan := { plan with state := st }, fs := fs, checkpoints := cps, err := none }
  | i :: rest, plan, fs, cps =>
    match plan.phases.get? i with
    | none => { plan := plan, fs := fs, checkpoints := cps, err := some "phase index out of range" }
    | some phase =>
      if (areDependenciesMet plan phase : Bool) = false then
        { plan := plan, fs := fs, checkpoints := cps
          err := some ("dependencies not met for phase " ++ phase.name) }
      else
        let cp : Checkpoint :=
          { id := "checkpoint-" ++ plan.id ++ "-phase-" ++ Nat.repr i
            planId := plan.id, phaseIndex := i, timestamp := env.now, metadata := [] }
        let cps1 := cps ++ [cp]
        let r := executePhase env plan i fs
        match r.err with
        | some e =>
          let st := { r.plan.state with
                      status := ExecutionStatus.failed
                      failedPhases := r.plan.state.failedPhases ++ [(i : Int)] }
          { plan := { r.plan with state := st }, fs := r.fs, checkpoints := cps1
            err := some ("phase " ++ Nat.repr (i + 1) ++ " failed: " ++ e) }
        | none =>
          let st := { r.plan.state with
                      completedPhases := r.plan.state.completedPhases ++ [(i : Int)]
                      currentPhase := (i : Int) + 1 }
          let plan2 := { r.plan with state := st }
          let plan3 :=
            match plan2.phases.get? i with
            | some p2 => setPhaseAt plan2 i { p2 with status := PhaseStatus.completed }
            | none => plan2
          executeLoop env rest plan3 r.fs cps1

/-- The startup block of `Execute`: set the plan running, set `startedAt`
only when unset, reset a negative `currentPhase` to 0, construct the
manifest when absent (seeding its expected structure). -/
def executePrep (env : Env) (plan0 : ExecutionPlan) : ExecutionPlan :=
  let st0 := plan0.state
  let st1 := { st0 with
               status := ExecutionStatus.running
               startedAt := match st0.startedAt with
                            | none => some env.now
                            | some t => some t }
  let st2 := if st1.currentPhase < 0 then { st1 with currentPhase := 0 } else st1
  let plan1 := { plan0 with state := st2 }
  match plan1.manifest with
  | none =>
    let m0 := NewProjectManifest plan1.title "."
    let m1 := if plan1.fileStructure ≠ [] then { m0 with fileStructure := plan1.fileStructure }
              else m0
    { plan1 with manifest := some m1 }
  | some _ => plan1

/-- `Executor.Execute`: the startup block, then upfront creation of the
project directories (failures only warn), then the phase loop from
`currentPhase` to the end of the phase list. -/
def Execute (env : Env) (plan0 : ExecutionPlan) (fs : FS) : ExecResult :=
  let plan2 := executePrep env plan0
  let fs1 := (initProjectStructure env plan2 fs).1
  let start := plan2.state.currentPhase.toNat
  executeLoop env (List.range' start (plan2.phases.length - start)) plan2 fs1 []

/-! ## JSON serialisation of plan state (`approval.go`, `encoding/json`)

`SavePlanState` marshals the plan (indented JSON) to
`<home>/.quantumflow/state/<planId>.json`; `LoadPlanState` unmarshals it.
The model below reproduces `encoding/json` on these structs: one field per
struct tag in declaration order, `omitempty` omitting zero values, the
`Manifest` field excluded by its `json:"-"` tag, missing fields decoding
to Go zero values.  The filesystem state directory is a key-value store
from file names to stored documents. -/

/-- A JSON document. -/
inductive JValue where
  | jnull
  | jbool (b : Bool)
  | jint (n : Int)
  | jstr (s : String)
  | jarr (xs : List JValue)
  | jobj (fields : List (String × JValue))
deriving Repr

/-- The wire form of a `PhaseStatus`. -/
def phaseStatusStr : PhaseStatus → String
  | PhaseStatus.pending => "pending"
  | PhaseStatus.inProgress => "in_progress"
  | PhaseStatus.completed => "completed"
  | PhaseStatus.failed => "failed"
  | PhaseStatus.skipped => "skipped"

/-- Parse a `PhaseStatus` back from its wire form. -/
def phaseStatusOfStr (s : String) : Option PhaseStatus :=
  if s = "pending" then some PhaseStatus.pending
  else if s = "in_progress" then some PhaseStatus.inProgress
  else if s = "completed" then some PhaseStatus.completed
  else if s = "failed" then some PhaseStatus.failed
  else if s = "skipped" then some PhaseStatus.skipped
  else none

/-- The wire form of an `ExecutionStatus`. -/
def executionStatusStr : ExecutionStatus → String
  | ExecutionStatus.pending => "pending"
  | ExecutionStatus.approved => "approved"
  | ExecutionStatus.running => "running"
  | ExecutionStatus.completed => "completed"
  | ExecutionStatus.failed => "failed"
  | ExecutionStatus.cancelled => "cancelled"

/-- Parse an `ExecutionStatus` back from its wire form. -/
def executionStatusOfStr (s : String) : Option ExecutionStatus :=
  if s = "pending" then some ExecutionStatus.pending
  else if s = "approved" then some ExecutionStatus.approved
  else if s = "running" then some ExecutionStatus.running
  else if s = "completed" then some ExecutionStatus.completed
  else if s = "failed" then some ExecutionStatus.failed
  else if s = "cancelled" then some ExecutionStatus.cancelled
  else none

/-- Marshal a `Task` (`result` and `error` carry `omitempty`). -/
def encTask (t : Task) : JValue :=
  JValue.jobj
    ([("id", JValue.jstr t.id), ("description", JValue.jstr t.description),
      ("completed", JValue.jbool t.completed)]
      ++ (if t.result = "" then [] else [("result", JValue.jstr t.result)])
      ++ (if t.error = "" then [] else [("error", JValue.jstr t.error)]))

/-- Marshal a list of strings. -/
def encStrList (xs : List String) : JValue :=
  JValue.jarr (xs.map JValue.jstr)

/-- Marshal a list of ints. -/
def encIntList (xs : List Int) : JValue :=
  JValue.jarr (xs.map JValue.jint)

/-- Marshal a `Phase`. -/
def encPhase (p : Phase) : JValue :=
  JValue.jobj
    [("id", JValue.jstr p.id), ("name", JValue.jstr p.name),
     ("agent", JValue.jstr p.agent),
     ("tasks", JValue.jarr (p.tasks.map encTask)),
     ("success_criteria", JValue.jstr p.successCriteria),
     ("estimated_time", JValue.jstr p.estimatedTime),
     ("dependencies", encStrList p.dependencies),
     ("status", JValue.jstr (phaseStatusStr p.status))]

/-- Marshal an `ExecutionState` (`last_checkpoint`, `started_at`,
`completed_at` carry `omitempty`). -/
def encState (st : ExecutionState) : JValue :=
  JValue.jobj
    ([("status", JValue.jstr (executionStatusStr st.status)),
      ("current_phase", JValue.jint st.currentPhase),
      ("completed_phases", encIntList st.completedPhases),
      ("failed_phases", encIntList st.failedPhases)]
      ++ (if st.lastCheckpoint = "" then []
          else [("last_checkpoint", JValue.jstr st.lastCheckpoint)])
      ++ (match st.startedAt with
          | none => []
          | some t => [("started_at", JValue.jint t)])
      ++ (match st.completedAt with
          | none => []
          | some t => [("completed_at", JValue.jint t)]))

/-- Marshal the `file_structure` map. -/
def encFileStructure (m : List (String × List String)) : JValue :=
  JValue.jobj (m.map (fun df => (df.1, encStrList df.2)))

/-- Marshal an `ExecutionPlan`: every field in declaration order except the
runtime-only `Manifest` (tag `json:"-"`); `file_structure` carries
`omitempty`. -/
def encPlan (p : ExecutionPlan) : JValue :=
  JValue.jobj
    ([("id", JValue.jstr p.id), ("title", JValue.jstr p.title),
      ("description", JValue.jstr p.description)]
      ++ (if p.fileStructure = [] then []
          else [("file_structure", encFileStructure p.fileStructure)])
      ++ [("phases", JValue.jarr (p.phases.map encPhase)),
          ("state", encState p.state),
          ("created_at", JValue.jint p.createdAt),
          ("updated_at", JValue.jint p.updatedAt)])

/-- Look a key up in a JSON object's field list. -/
def jLookup : List (String × JValue) → String → Option JValue
  | [], _ => none
  | (k, v) :: rest, key => if k = key then some v else jLookup rest key

/-- Unmarshal a string field: a missing field is the zero value `""`. -/
def jGetStr (fields : List (String × JValue)) (key : String) : Option String :=
  match jLookup fields key with
  | none => some ""
  | some (JValue.jstr s) => some s
  | some _ => none

/-- Unmarshal a bool field: a missing field is the zero value `false`. -/
def jGetBool (fields : List (String × JValue)) (key : String) : Option Bool :=
  match jLookup fields key with
  | none => some false
  | some (JValue.jbool b) => some b
  | some _ => none

/-- Unmarshal an int field: a missing field is the zero value `0`. -/
def jGetInt (fields : List (String × JValue)) (key : String) : Option Int :=
  match jLookup fields key with
  | none => some 0
  | some (JValue.jint n) => some n
  | some _ => none

/-- Unmarshal an optional-time field: a missing field is the nil pointer. -/
def jGetOptInt (fields : List (String × JValue)) (key : String) : Option (Option Int) :=
  match jLookup fields key with
  | none => some none
  | some (JValue.jint n) => some (some n)
  | some _ => none

/-- Unmarshal an array field: a missing field (or JSON `null`) is the nil
slice. -/
def jGetArr (fields : List (String × JValue)) (key : String) : Option (List JValue) :=
  match jLookup fields key with
  | none => some []
  | some JValue.jnull => some []
  | some (JValue.jarr xs) => some xs
  | some _ => none

/-- Unmarshal an object field: a missing field (or JSON `null`) is the nil
map. -/
def jGetObj (fields : List (String × JValue)) (key : String) :
    Option (List (String × JValue)) :=
  match jLookup fields key with
  | none => some []
  | some JValue.jnull => some []
  | some (JValue.jobj fs) => some fs
  | some _ => none

/-- Unmarshal each element of a JSON array. -/
def decodeList {α : Type} (dec : JValue → Option α) : List JValue → Option (List α)
  | [] => some []
  | v :: rest =>
    match dec v, decodeList dec rest with
    | some x, some xs => some (x :: xs)
    | _, _ => none

/-- Unmarshal a JSON string. -/
def decStr : JValue → Option String
  | JValue.jstr s => some s
  | _ => none

/-- Unmarshal a JSON int. -/
def decInt : JValue → Option Int
  | JValue.jint n => some n
  | _ => none

/-- Unmarshal a `Task`. -/
def decTask : JValue → Option Task
  | JValue.jobj fields => do
    let id ← jGetStr fields "id"
    let description ← jGetStr fields "description"
    let completed ← jGetBool fields "completed"
    let result ← jGetStr fields "result"
    let error ← jGetStr fields "error"
    some { id := id, description := description, completed := completed
           result := result, error := error }
  | _ => none

/-- Unmarshal a `Phase`. -/
def decPhase : JValue → Option Phase
  | JValue.jobj fields => do
    let id ← jGetStr fields "id"
    let name ← jGetStr fields "name"
    let agent ← jGetStr fields "agent"
    let taskVals ← jGetArr fields "tasks"
    let tasks ← decodeList decTask taskVals
    let successCriteria ← jGetStr fields "success_criteria"
    let estimatedTime ← jGetStr fields "estimated_time"
    let depVals ← jGetArr fields "dependencies"
    let dependencies ← decodeList decStr depVals
    let statusStr ← jGetStr fields "status"
    let status ← phaseStatusOfStr statusStr
    some { id := id, name := name, agent := agent, tasks := tasks
           successCriteria := successCriteria, estimatedTime := estimatedTime
           dependencies := dependencies, status := status }
  | _ => none

/-- Unmarshal an `ExecutionState`. -/
def decState : JValue → Option ExecutionState
  | JValue.jobj fields => do
    let statusStr ← jGetStr fields "status"
    let status ← executionStatusOfStr statusStr
    let currentPhase ← jGetInt fields "current_phase"
    let completedVals ← jGetArr fields "completed_phases"
    let completedPhases ← decodeList decInt completedVals
    let failedVals ← jGetArr fields "failed_phases"
    let failedPhases ← decodeList decInt failedVals
    let lastCheckpoint ← jGetStr fields "last_checkpoint"
    let startedAt ← jGetOptInt fields "started_at"
    let completedAt ← jGetOptInt fields "completed_at"
    some { status := status, currentPhase := currentPhase
           completedPhases := completedPhases, failedPhases := failedPhases
           lastCheckpoint := lastCheckpoint, startedAt := startedAt
           completedAt := completedAt }
  | _ => none

/-- Unmarshal the `file_structure` map. -/
def decFileStructure : List (String × JValue) → Option (List (String × List String))
  | [] => some []
  | (k, v) :: rest =>
    match v with
    | JValue.jarr xs =>
      match decodeList decStr xs, decFileStructure rest with
      | some l, some r => some ((k, l) :: r)
      | _, _ => none
    | _ => none

/-- Unmarshal an `ExecutionPlan`; the runtime-only `manifest` comes back as
the nil pointer. -/
def decPlan : JValue → Option ExecutionPlan
  | JValue.jobj fields => do
    let id ← jGetStr fields "id"
    let title ← jGetStr fields "title"
    let description ← jGetStr fields "description"
    let fsFields ← jGetObj fields "file_structure"
    let fileStructure ← decFileStructure fsFields
    let phaseVals ← jGetArr fields "phases"
    let phases ← decodeList decPhase phaseVals
    let state ←
      match jLookup fields "state" with
      | some v => decState v
      | none => none
    let createdAt ← jGetInt fields "created_at"
    let updatedAt ← jGetInt fields "updated_at"
    some { id := id, title := title, description := description
           fileStructure := fileStructure, phases := phases, state := state
           manifest := none, createdAt := createdAt, updatedAt := updatedAt }
  | _ => none

/-- The state directory as a key-value store (`os.WriteFile` overwrites). -/
def storeSet : List (String × JValue) → String → JValue → List (String × JValue)
  | [], key, v => [(key, v)]
  | (k, v0) :: rest, key, v =>
    if k = key then (key, v) :: rest else (k, v0) :: storeSet rest key v

/-- `ApprovalWorkflow.SavePlanState`: marshal the plan and write it to
`<stateDir>/<planId>.json`. -/
def SavePlanState (store : List (String × JValue)) (plan : ExecutionPlan) :
    List (String × JValue) :=
  storeSet store (plan.id ++ ".json") (encPlan plan)

/-- `ApprovalWorkflow.LoadPlanState`: read `<stateDir>/<planId>.json` and
unmarshal it. -/
def LoadPlanState (store : List (String × JValue)) (planID : String) :
    Option ExecutionPlan :=
  match jLookup store (planID ++ ".json") with
  | some v => decPlan v
  | none => none

/-- The paths recorded in a manifest, in order. -/
def manifestPaths (m : ProjectManifest) : List String :=
  m.createdFiles.map (fun f => f.path)

/-- The no-duplicate-paths predicate on an optional manifest. -/
def manifestPathsNodup : Option ProjectManifest → Prop
  | none => True
  | some m => (manifestPaths m).Nodup

/-- The path-safety predicate of the executor: the cleaned path neither
escapes upward nor is absolute. -/
def safePath (p : String) : Prop :=
  strHasPrefix p ".." = false ∧ strHasPrefix p "/" = false

/-- A line that `processCommandBlocks` would run without failing. -/
def goodLine (env : Env) (l : String) : Prop :=
  strTrim l ≠ "" → strHasPrefix (strTrim l) "#" = false →
    isDangerousCommand (strTrim l) = false → env.runCmdOk (strTrim l) = true

instance (env : Env) (l : String) : Decidable (goodLine env l) := by
  unfold goodLine
  infer_instance

/-- The checkpoint `executeLoop` records before phase `i`. -/
def loopCheckpoint (env : Env) (plan : ExecutionPlan) (i : Nat) : Checkpoint :=
  { id := "checkpoint-" ++ plan.id ++ "-phase-" ++ Nat.repr i
    planId := plan.id, phaseIndex := i, timestamp := env.now, metadata := [] }

/-! ## Concrete runs (used as counterexamples and witnesses) -/

/-- An empty filesystem. -/
def fs0 : FS := { files := [], dirs := [] }

/-- An environment whose single registered agent answers `"done"` with no
fenced blocks, and where every filesystem and shell operation succeeds. -/
def envT : Env :=
  { now := 5
    agents := ["code"]
    agentExec := fun _ _ => Except.ok "done"
    fileMatches := fun _ => []
    cmdBlocks := fun _ => []
    mkdirFail := fun _ => false
    writeFail := fun _ => false
    statSize := fun _ => 0
    runCmdOk := fun _ => true }

/-- Like `envT` but the agent fails. -/
def envF : Env := { envT with agentExec := fun _ _ => Except.error "boom" }

/-- Like `envT` but the answer carries one file block and every file write
fails. -/
def envW : Env :=
  { envT with
    fileMatches := fun _ => [{ lang := "python", filename := "a.py", content := "print(1)" }]
    writeFail := fun _ => true }

/-- Like `envT` but the answer carries one (safe) file block. -/
def envB : Env :=
  { envT with
    fileMatches := fun _ => [{ lang := "python", filename := "a.py", content := "print(1)" }] }

/-- Like `envT` but the answer carries one shell block whose first line is
on the denylist. -/
def envC : Env :=
  { envT with cmdBlocks := fun _ => ["rm -rf /\necho hi"] }

/-- A task, initially not completed. -/
def task0 : Task :=
  { id := "t", description := "echo", completed := false, result := "", error := "" }

/-- A single dependency-free phase for the `code` agent. -/
def phase0 : Phase :=
  { id := "phase-1", name := "ph", agent := "code", tasks := [task0]
    successCriteria := "ok", estimatedTime := "1m", dependencies := [], status := PhaseStatus.pending }

/-- A plan state that has never run. -/
def freshState : ExecutionState :=
  { status := ExecutionStatus.pending, currentPhase := 0, completedPhases := []
    failedPhases := [], lastCheckpoint := "", startedAt := none, completedAt := none }

/-- A one-phase plan that has never run. -/
def plan0 : ExecutionPlan :=
  { id := "p1", title := "T", description := "", fileStructure := [], phases := [phase0]
    state := freshState, manifest := none, createdAt := 0, updatedAt := 0 }

/-- `plan0` with an unsatisfiable dependency on its only phase. -/
def planD : ExecutionPlan :=
  { plan0 with phases := [{ phase0 with dependencies := ["x"] }] }

/-- A two-phase plan mid-resume: phase 0 already completed, `startedAt`
already set, `currentPhase = 1`. -/
def planR : ExecutionPlan :=
  { plan0 with
    phases := [{ phase0 with id := "a", name := "alpha", status := PhaseStatus.completed },
               { phase0 with id := "b", name := "beta" }]
    state := { freshState with
               status := ExecutionStatus.running, currentPhase := 1
               completedPhases := [0], startedAt := some 3 } }

/-! ## Helper lemmas: the startup block -/

lemma executePrep_phases (env : Env) (p : ExecutionPlan) :
    (executePrep env p).phases = p.phases := by
  unfold executePrep
  cases hm : p.manifest <;> simp [hm]

lemma executePrep_completedPhases (env : Env) (p : ExecutionPlan) :
    (executePrep env p).state.completedPhases = p.state.completedPhases := by
  unfold executePrep
  cases hm : p.manifest <;> cases hs : p.state.startedAt <;>
    simp_all <;> split <;> rfl

lemma executePrep_failedPhases (env : Env) (p : ExecutionPlan) :
    (executePrep env p).state.failedPhases = p.state.failedPhases := by
  unfold executePrep
  cases hm : p.manifest <;> cases hs : p.state.startedAt <;>
    simp_all <;> split <;> rfl

lemma executePrep_startedAt_some (env : Env) (p : ExecutionPlan) (t : Int)
    (h : p.state.startedAt = some t) :
    (executePrep env p).state.startedAt = some t := by
  unfold executePrep
  cases hm : p.manifest <;> simp_all <;> split <;> rfl

lemma executePrep_startedAt_none (env : Env) (p : ExecutionPlan)
    (h : p.state.startedAt = none) :
    (executePrep env p).state.startedAt = some env.now := by
  unfold executePrep
  cases hm : p.manifest <;> simp_all <;> split <;> rfl

lemma executePrep_currentPhase_nonneg (env : Env) (p : ExecutionPlan)
    (h : 0 ≤ p.state.currentPhase) :
    (executePrep env p).state.currentPhase = p.state.currentPhase := by
  unfold executePrep
  cases hm : p.manifest <;> cases hs : p.state.startedAt <;>
    simp_all <;> split <;> simp_all <;> omega

lemma executePrep_currentPhase_neg (env : Env) (p : ExecutionPlan)
    (h : p.state.currentPhase < 0) :
    (executePrep env p).state.currentPhase = 0 := by
  unfold executePrep
  cases hm : p.manifest <;> cases hs : p.state.startedAt <;> simp_all

/-! ## Helper lemmas: file extraction -/

lemma manifestPaths_AddFile (env : Env) (m : ProjectManifest) (path phase purpose : String) :
    manifestPaths (m.AddFile env path phase purpose) = manifestPaths m ++ [path] := by
  simp [ProjectManifest.AddFile, manifestPaths]

lemma FileExists_iff (m : ProjectManifest) (p : String) :
    m.FileExists p = true ↔ p ∈ manifestPaths m := by
  simp only [ProjectManifest.FileExists, manifestPaths, List.any_eq_true, List.mem_map,
    beq_iff_eq]

lemma FileExists_eq_false_iff (m : ProjectManifest) (p : String) :
    m.FileExists p = false ↔ p ∉ manifestPaths m := by
  rw [← FileExists_iff]
  cases h : m.FileExists p <;> simp [h]

lemma FS.files_dirIf (c : Prop) [Decidable c] (fs : FS) (d : String) :
    (if c then { fs with dirs := fs.dirs ++ [d] } else fs).files = fs.files := by
  split <;> rfl

/-- The workhorse invariant of `pfbLoop` on a present manifest: the created
files extend the accumulator by a duplicate-free list `ext` of safe paths,
none of which was recorded in the manifest at entry, and the manifest's
path list is extended by exactly `ext`; every file written is safe. -/
lemma pfbLoop_spec (env : Env) (phaseName : String) :
    ∀ (ms : List FileMatch) (acc : List String) (mm : ProjectManifest) (fs : FS),
    ∃ mm2 ext,
      (pfbLoop env phaseName ms acc (some mm) fs).manifest = some mm2 ∧
      (pfbLoop env phaseName ms acc (some mm) fs).filesCreated = acc ++ ext ∧
      manifestPaths mm2 = manifestPaths mm ++ ext ∧
      ext.Nodup ∧
      (∀ p ∈ ext, mm.FileExists p = false) ∧
      (∀ p ∈ ext, safePath p) ∧
      (∀ pc ∈ (pfbLoop env phaseName ms acc (some mm) fs).fs.files,
        pc ∈ fs.files ∨ safePath pc.1) := by
  intro ms
  induction ms with
  | nil =>
    intro acc mm fs
    exact ⟨mm, [], rfl, by simp [pfbLoop], by simp, List.nodup_nil, by simp, by simp,
      fun pc h => Or.inl h⟩
  | cons mt rest ih =>
    intro acc mm fs
    by_cases h1 : strTrim mt.content = ""
    · simpa only [pfbLoop, if_pos h1] using ih acc mm fs
    · by_cases h2 : strHasPrefix (goClean (strTrim mt.filename)) ".." = true
        ∨ strHasPrefix (goClean (strTrim mt.filename)) "/" = true
      · simpa only [pfbLoop, if_neg h1, if_pos h2] using ih acc mm fs
      · have hsafe : safePath (goClean (strTrim mt.filename)) := by
          constructor
          · cases hb : strHasPrefix (goClean (strTrim mt.filename)) ".." with
            | false => rfl
            | true => exact absurd (Or.inl hb) h2
          · cases hb : strHasPrefix (goClean (strTrim mt.filename)) "/" with
            | false => rfl
            | true => exact absurd (Or.inr hb) h2
        by_cases h3 : manifestHasFile (some mm) (goClean (strTrim mt.filename)) = true
        · simpa only [pfbLoop, if_neg h1, if_neg h2, if_pos h3] using ih acc mm fs
        · have h3f : mm.FileExists (goClean (strTrim mt.filename)) = false := by
            cases hb : mm.FileExists (goClean (strTrim mt.filename)) with
            | false => rfl
            | true => exact absurd hb h3
          by_cases h5 : (goDir (goClean (strTrim mt.filename)) ≠ "." ∧
              goDir (goClean (strTrim mt.filename)) ≠ "") ∧
              env.mkdirFail (goDir (goClean (strTrim mt.filename))) = true
          · refine ⟨mm, [], ?_, ?_, by simp, List.nodup_nil, by simp, by simp, ?_⟩
            · simp only [pfbLoop, if_neg h1, if_neg h2, if_neg h3, if_pos h5]
            · simp only [pfbLoop, if_neg h1, if_neg h2, if_neg h3, if_pos h5]
              simp
            · intro pc hpc
              simp only [pfbLoop, if_neg h1, if_neg h2, if_neg h3, if_pos h5] at hpc
              exact Or.inl hpc
          · by_cases h6 : env.writeFail (goClean (strTrim mt.filename)) = true
            · refine ⟨mm, [], ?_, ?_, by simp, List.nodup_nil, by simp, by simp, ?_⟩
              · simp only [pfbLoop, if_neg h1, if_neg h2, if_neg h3, if_neg h5, if_pos h6]
              · simp only [pfbLoop, if_neg h1, if_neg h2, if_neg h3, if_neg h5, if_pos h6]
                simp
              · intro pc hpc
                simp only [pfbLoop, if_neg h1, if_neg h2, if_neg h3, if_neg h5, if_pos h6,
                  FS.files_dirIf] at hpc
                exact Or.inl hpc
            · obtain ⟨mm2, ext', e1, e2, e3, e4, e5, e6, e7⟩ :=
                ih (acc ++ [goClean (strTrim mt.filename)])
                  (mm.AddFile env (goClean (strTrim mt.filename)) phaseName "")
                  { files := fs.files ++ [(goClean (strTrim mt.filename), strTrim mt.content)]
                    dirs := (if goDir (goClean (strTrim mt.filename)) ≠ "." ∧
                                goDir (goClean (strTrim mt.filename)) ≠ "" then
                              { fs with dirs := fs.dirs ++ [goDir (goClean (strTrim mt.filename))] }
                             else fs).dirs }
              have hred :
                  pfbLoop env phaseName (mt :: rest) acc (some mm) fs
                    = pfbLoop env phaseName rest (acc ++ [goClean (strTrim mt.filename)])
                        (some (mm.AddFile env (goClean (strTrim mt.filename)) phaseName ""))
                        { files := fs.files ++ [(goClean (strTrim mt.filename), strTrim mt.content)]
                          dirs := (if goDir (goClean (strTrim mt.filename)) ≠ "." ∧
                                      goDir (goClean (strTrim mt.filename)) ≠ "" then
                                    { fs with dirs := fs.dirs ++ [goDir (goClean (strTrim mt.filename))] }
                                   else fs).dirs } := by
                simp only [pfbLoop, if_neg h1, if_neg h2, if_neg h3, if_neg h5, if_neg h6,
                  Option.map_some', FS.files_dirIf]
              rw [hred]
              refine ⟨mm2, goClean (strTrim mt.filename) :: ext', e1, ?_, ?_, ?_, ?_, ?_, ?_⟩
              · rw [e2]; simp
              · rw [e3, manifestPaths_AddFile]; simp
              · refine List.Nodup.cons ?_ e4
                intro hmem
                have := e5 _ hmem
                rw [FileExists_eq_false_iff, manifestPaths_AddFile] at this
                exact this (by simp)
              · intro p hp
                rcases List.mem_cons.mp hp with rfl | hp2
                · exact h3f
                · have := e5 _ hp2
                  rw [FileExists_eq_false_iff, manifestPaths_AddFile] at this
                  rw [FileExists_eq_false_iff]
                  intro hc; exact this (by simp [hc])
              · intro p hp
                rcases List.mem_cons.mp hp with rfl | hp2
                · exact hsafe
                · exact e6 _ hp2
              · intro pc hpc
                rcases e7 pc hpc with hin | hs
                · rcases List.mem_append.mp hin with hin2 | hin2
                  · exact Or.inl hin2
                  · right
                    have hpc2 : pc = (goClean (strTrim mt.filename), strTrim mt.content) := by
                      simpa using hin2
                    rw [hpc2]; exact hsafe
                · exact Or.inr hs

/-- `pfbLoop` on an absent manifest: the manifest stays absent, and created
files / written files are safe as in the present-manifest case. -/
lemma pfbLoop_none (env : Env) (phaseName : String) :
    ∀ (ms : List FileMatch) (acc : List String) (fs : FS),
      (pfbLoop env phaseName ms acc none fs).manifest = none ∧
      (∀ p ∈ (pfbLoop env phaseName ms acc none fs).filesCreated, p ∈ acc ∨ safePath p) ∧
      (∀ pc ∈ (pfbLoop env phaseName ms acc none fs).fs.files,
        pc ∈ fs.files ∨ safePath pc.1) := by
  intro ms
  induction ms with
  | nil =>
    intro acc fs
    exact ⟨rfl, fun p hp => Or.inl hp, fun pc h => Or.inl h⟩
  | cons mt rest ih =>
    intro acc fs
    by_cases h1 : strTrim mt.content = ""
    · simpa only [pfbLoop, if_pos h1] using ih acc fs
    · by_cases h2 : strHasPrefix (goClean (strTrim mt.filename)) ".." = true
        ∨ strHasPrefix (goClean (strTrim mt.filename)) "/" = true
      · simpa only [pfbLoop, if_neg h1, if_pos h2] using ih acc fs
      · have hsafe : safePath (goClean (strTrim mt.filename)) := by
          constructor
          · cases hb : strHasPrefix (goClean (strTrim mt.filename)) ".." with
            | false => rfl
            | true => exact absurd (Or.inl hb) h2
          · cases hb : strHasPrefix (goClean (strTrim mt.filename)) "/" with
            | false => rfl
            | true => exact absurd (Or.inr hb) h2
        have h3 : ¬ (manifestHasFile none (goClean (strTrim mt.filename)) = true) := by
          simp [manifestHasFile]
        by_cases h5 : (goDir (goClean (strTrim mt.filename)) ≠ "." ∧
            goDir (goClean (strTrim mt.filename)) ≠ "") ∧
            env.mkdirFail (goDir (goClean (strTrim mt.filename))) = true
        · refine ⟨?_, ?_, ?_⟩
          · simp only [pfbLoop, if_neg h1, if_neg h2, if_neg h3, if_pos h5]
          · intro p hp
            simp only [pfbLoop, if_neg h1, if_neg h2, if_neg h3, if_pos h5] at hp
            exact Or.inl hp
          · intro pc hpc
            simp only [pfbLoop, if_neg h1, if_neg h2, if_neg h3, if_pos h5] at hpc
            exact Or.inl hpc
        · by_cases h6 : env.writeFail (goClean (strTrim mt.filename)) = true
          · refine ⟨?_, ?_, ?_⟩
            · simp only [pfbLoop, if_neg h1, if_neg h2, if_neg h3, if_neg h5, if_pos h6]
            · intro p hp
              simp only [pfbLoop, if_neg h1, if_neg h2, if_neg h3, if_neg h5, if_pos h6] at hp
              exact Or.inl hp
            · intro pc hpc
              simp only [pfbLoop, if_neg h1, if_neg h2, if_neg h3, if_neg h5, if_pos h6,
                FS.files_dirIf] at hpc
              exact Or.inl hpc
          · have hred :
                pfbLoop env phaseName (mt :: rest) acc none fs
                  = pfbLoop env phaseName rest (acc ++ [goClean (strTrim mt.filename)]) none
                      { files := fs.files ++ [(goClean (strTrim mt.filename), strTrim mt.content)]
                        dirs := (if goDir (goClean (strTrim mt.filename)) ≠ "." ∧
                                    goDir (goClean (strTrim mt.filename)) ≠ "" then
                                  { fs with
                                    dirs := fs.dirs ++ [goDir (goClean (strTrim mt.filename))] }
                                 else fs).dirs } := by
              simp only [pfbLoop, if_neg h1, if_neg h2, if_neg h3, if_neg h5, if_neg h6,
                Option.map_none', FS.files_dirIf]
            rw [hred]
            obtain ⟨g1, g2, g3⟩ := ih (acc ++ [goClean (strTrim mt.filename)])
              { files := fs.files ++ [(goClean (strTrim mt.filename), strTrim mt.content)]
                dirs := (if goDir (goClean (strTrim mt.filename)) ≠ "." ∧
                            goDir (goClean (strTrim mt.filename)) ≠ "" then
                          { fs with dirs := fs.dirs ++ [goDir (goClean (strTrim mt.filename))] }
                         else fs).dirs }
            refine ⟨g1, ?_, ?_⟩
            · intro p hp
              rcases g2 p hp with hin | hs
              · rcases List.mem_append.mp hin with hin2 | hin2
                · exact Or.inl hin2
                · right
                  have : p = goClean (strTrim mt.filename) := by simpa using hin2
                  rw [this]; exact hsafe
              · exact Or.inr hs
            · intro pc hpc
              rcases g3 pc hpc with hin | hs
              · rcases List.mem_append.mp hin with hin2 | hin2
                · exact Or.inl hin2
                · right
                  have hpc2 : pc = (goClean (strTrim mt.filename), strTrim mt.content) := by
                    simpa using hin2
                  rw [hpc2]; exact hsafe
              · exact Or.inr hs

/-! ## Helper lemmas: command extraction -/

/-- `pcbLines` appends only non-dangerous commands, and succeeds whenever
every line of the script is good. -/
lemma pcbLines_spec (env : Env) :
    ∀ (lines acc : List String),
      ((∀ c ∈ acc, isDangerousCommand c = false) →
        ∀ c ∈ (pcbLines env lines acc).1, isDangerousCommand c = false) ∧
      ((∀ l ∈ lines, goodLine env l) → (pcbLines env lines acc).2 = none) := by
  intro lines
  induction lines with
  | nil => intro acc; exact ⟨fun h c hc => h c hc, fun _ => rfl⟩
  | cons l rest ih =>
    intro acc
    by_cases h1 : strTrim l = "" ∨ strHasPrefix (strTrim l) "#" = true
    · constructor
      · intro hacc
        have := (ih acc).1 hacc
        simpa only [pcbLines, if_pos h1] using this
      · intro hgood
        have := (ih acc).2 (fun x hx => hgood x (List.mem_cons_of_mem _ hx))
        simpa only [pcbLines, if_pos h1] using this
    · by_cases h2 : isDangerousCommand (strTrim l) = true
      · have h2' : ¬ (strTrim l = "" ∨ strHasPrefix (strTrim l) "#" = true) := h1
        constructor
        · intro hacc
          have := (ih acc).1 hacc
          simpa only [pcbLines, if_neg h2', if_pos h2] using this
        · intro hgood
          have := (ih acc).2 (fun x hx => hgood x (List.mem_cons_of_mem _ hx))
          simpa only [pcbLines, if_neg h2', if_pos h2] using this
      · have h2f : isDangerousCommand (strTrim l) = false := by
          cases hb : isDangerousCommand (strTrim l) with
          | false => rfl
          | true => exact absurd hb h2
        by_cases h3 : env.runCmdOk (strTrim l) = true
        · constructor
          · intro hacc
            have hacc2 : ∀ c ∈ acc ++ [strTrim l], isDangerousCommand c = false := by
              intro c hc
              rcases List.mem_append.mp hc with hc2 | hc2
              · exact hacc c hc2
              · have : c = strTrim l := by simpa using hc2
                rw [this]; exact h2f
            have := (ih (acc ++ [strTrim l])).1 hacc2
            simpa only [pcbLines, if_neg h1, if_neg h2, if_pos h3] using this
          · intro hgood
            have := (ih (acc ++ [strTrim l])).2 (fun x hx => hgood x (List.mem_cons_of_mem _ hx))
            simpa only [pcbLines, if_neg h1, if_neg h2, if_pos h3] using this
        · constructor
          · intro hacc
            intro c hc
            simp only [pcbLines, if_neg h1, if_neg h2, if_neg h3] at hc
            exact hacc c hc
          · intro hgood
            have hne : strTrim l ≠ "" := fun hc => h1 (Or.inl hc)
            have hhash : strHasPrefix (strTrim l) "#" = false := by
              cases hb : strHasPrefix (strTrim l) "#" with
              | false => rfl
              | true => exact absurd (Or.inr hb) h1
            exact (h3 (hgood l (List.mem_cons_self l rest) hne hhash h2f)).elim

/-- `pcbBlocks` appends only non-dangerous commands, and succeeds whenever
every line of every script is good. -/
lemma pcbBlocks_spec (env : Env) :
    ∀ (blocks acc : List String),
      ((∀ c ∈ acc, isDangerousCommand c = false) →
        ∀ c ∈ (pcbBlocks env blocks acc).1, isDangerousCommand c = false) ∧
      ((∀ b ∈ blocks, ∀ l ∈ strSplitOnChar '\n' (strTrim b), goodLine env l) →
        (pcbBlocks env blocks acc).2 = none) := by
  intro blocks
  induction blocks with
  | nil => intro acc; exact ⟨fun h c hc => h c hc, fun _ => rfl⟩
  | cons b rest ih =>
    intro acc
    by_cases h1 : strTrim b = ""
    · constructor
      · intro hacc
        have := (ih acc).1 hacc
        simpa only [pcbBlocks, if_pos h1] using this
      · intro hgood
        have := (ih acc).2 (fun x hx => hgood x (List.mem_cons_of_mem _ hx))
        simpa only [pcbBlocks, if_pos h1] using this
    · rcases hpl : pcbLines env (strSplitOnChar '\n' (strTrim b)) acc with ⟨acc1, err1⟩
      constructor
      · intro hacc
        have hacc1 : ∀ c ∈ acc1, isDangerousCommand c = false := by
          have := (pcbLines_spec env (strSplitOnChar '\n' (strTrim b)) acc).1 hacc
          rw [hpl] at this
          exact this
        cases err1 with
        | none =>
          have := (ih acc1).1 hacc1
          intro c hc
          apply this
          simpa only [pcbBlocks, if_neg h1, hpl] using hc
        | some e =>
          intro c hc
          simp only [pcbBlocks, if_neg h1, hpl] at hc
          exact hacc1 c hc
      · intro hgood
        have herr : err1 = none := by
          have := (pcbLines_spec env (strSplitOnChar '\n' (strTrim b)) acc).2
            (hgood b (List.mem_cons_self b rest))
          rw [hpl] at this
          exact this
        subst herr
        have := (ih acc1).2 (fun x hx => hgood x (List.mem_cons_of_mem _ hx))
        simpa only [pcbBlocks, if_neg h1, hpl] using this

/-! ## Helper lemmas: executePhase -/

lemma executePhase_state (env : Env) (plan : ExecutionPlan) (i : Nat) (fs : FS) :
    (executePhase env plan i fs).plan.state = plan.state := by
  unfold executePhase
  split
  · rfl
  · dsimp only
    split
    · rfl
    · split <;> rfl

lemma executePhase_length (env : Env) (plan : ExecutionPlan) (i : Nat) (fs : FS) :
    (executePhase env plan i fs).plan.phases.length = plan.phases.length := by
  unfold executePhase
  split
  · rfl
  · dsimp only
    split
    · simp [setPhaseAt]
    · split <;> simp [setPhaseAt]

lemma executePhase_id (env : Env) (plan : ExecutionPlan) (i : Nat) (fs : FS) :
    (executePhase env plan i fs).plan.id = plan.id := by
  unfold executePhase
  split
  · rfl
  · dsimp only
    split
    · rfl
    · split <;> rfl

lemma setPhaseAt_get?_ne (plan : ExecutionPlan) (i j : Nat) (ph : Phase) (h : i ≠ j) :
    (setPhaseAt plan i ph).phases.get? j = plan.phases.get? j := by
  simp [setPhaseAt, List.getElem?_set_ne h]

lemma executePhase_get?_ne (env : Env) (plan : ExecutionPlan) (i j : Nat) (fs : FS)
    (h : i ≠ j) :
    (executePhase env plan i fs).plan.phases.get? j = plan.phases.get? j := by
  unfold executePhase
  split
  · rfl
  · dsimp only
    split
    · exact setPhaseAt_get?_ne plan i j _ h
    · split
      · exact setPhaseAt_get?_ne plan i j _ h
      · show (setPhaseAt _ i _).phases.get? j = _
        rw [setPhaseAt_get?_ne _ i j _ h]
        exact setPhaseAt_get?_ne plan i j _ h

lemma executePhase_get?_self (env : Env) (plan : ExecutionPlan) (i : Nat) (fs : FS)
    (ph0 : Phase) (hg : plan.phases.get? i = some ph0) :
    ∃ ph, (executePhase env plan i fs).plan.phases.get? i = some ph ∧
      ph.status = PhaseStatus.inProgress := by
  have hlt : i < plan.phases.length := by
    rcases List.get?_eq_some.mp hg with ⟨h, _⟩
    exact h
  unfold executePhase
  rw [hg]
  dsimp only
  split
  · refine ⟨{ ph0 with status := PhaseStatus.inProgress }, ?_, rfl⟩
    simp [setPhaseAt, List.getElem?_set_eq_of_lt _ hlt]
  · split
    · refine ⟨{ ph0 with status := PhaseStatus.inProgress }, ?_, rfl⟩
      simp [setPhaseAt, List.getElem?_set_eq_of_lt _ hlt]
    · rename_i answer heq
      refine ⟨{ ph0 with
                status := PhaseStatus.inProgress
                tasks := ph0.tasks.map (fun t => { t with completed := true, result := answer }) },
        ?_, rfl⟩
      simp [setPhaseAt, List.set_set, List.getElem?_set_eq_of_lt _ hlt]

lemma executePhase_manifest_nodup (env : Env) (plan : ExecutionPlan) (i : Nat) (fs : FS)
    (h : manifestPathsNodup plan.manifest) :
    manifestPathsNodup (executePhase env plan i fs).plan.manifest := by
  unfold executePhase
  split
  · exact h
  · rename_i ph0 hg
    dsimp only
    split
    · exact h
    · split
      · exact h
      · rename_i answer heq
        show manifestPathsNodup
          (pfbLoop env ph0.name (env.fileMatches answer) [] plan.manifest fs).manifest
        cases hm : plan.manifest with
        | none =>
          rw [(pfbLoop_none env ph0.name (env.fileMatches answer) [] fs).1]
          trivial
        | some mm =>
          obtain ⟨mm2, ext, e1, _, e3, e4, e5, _, _⟩ :=
            pfbLoop_spec env ph0.name (env.fileMatches answer) [] mm fs
          rw [e1]
          show (manifestPaths mm2).Nodup
          rw [e3, List.nodup_append]
          rw [hm] at h
          refine ⟨h, e4, ?_⟩
          intro p hp hp2
          have := e5 p hp2
          rw [FileExists_eq_false_iff] at this
          exact this hp

lemma executePhase_files_safe (env : Env) (plan : ExecutionPlan) (i : Nat) (fs : FS) :
    ∀ pc ∈ (executePhase env plan i fs).fs.files, pc ∈ fs.files ∨ safePath pc.1 := by
  unfold executePhase
  split
  · exact fun pc h => Or.inl h
  · rename_i ph0 hg
    dsimp only
    split
    · exact fun pc h => Or.inl h
    · split
      · exact fun pc h => Or.inl h
      · rename_i answer heq
        show ∀ pc ∈ (pfbLoop env ph0.name (env.fileMatches answer) []
            plan.manifest fs).fs.files, pc ∈ fs.files ∨ safePath pc.1
        cases hm : plan.manifest with
        | none =>
          exact (pfbLoop_none env ph0.name (env.fileMatches answer) [] fs).2.2
        | some mm =>
          obtain ⟨_, _, _, _, _, _, _, _, e7⟩ :=
            pfbLoop_spec env ph0.name (env.fileMatches answer) [] mm fs
          exact e7

lemma setPhaseAt_mem (plan : ExecutionPlan) (i : Nat) (x ph : Phase)
    (h : ph ∈ (setPhaseAt plan i x).phases) : ph ∈ plan.phases ∨ ph = x := by
  simpa [setPhaseAt] using List.mem_or_eq_of_mem_set h

lemma executePhase_status_closure (env : Env) (plan : ExecutionPlan) (i : Nat) (fs : FS)
    (h : ∀ ph ∈ plan.phases,
      ph.status = PhaseStatus.pending ∨ ph.status = PhaseStatus.inProgress ∨
        ph.status = PhaseStatus.completed) :
    ∀ ph ∈ (executePhase env plan i fs).plan.phases,
      ph.status = PhaseStatus.pending ∨ ph.status = PhaseStatus.inProgress ∨
        ph.status = PhaseStatus.completed := by
  unfold executePhase
  split
  · exact h
  · dsimp only
    split
    · intro ph hph
      rcases setPhaseAt_mem _ _ _ _ hph with hin | rfl
      · exact h ph hin
      · exact Or.inr (Or.inl rfl)
    · split
      · intro ph hph
        rcases setPhaseAt_mem _ _ _ _ hph with hin | rfl
        · exact h ph hin
        · exact Or.inr (Or.inl rfl)
      · intro ph hph
        rcases setPhaseAt_mem _ _ _ _ hph with hin | rfl
        · rcases setPhaseAt_mem _ _ _ _ hin with hin2 | rfl
          · exact h ph hin2
          · exact Or.inr (Or.inl rfl)
        · exact Or.inr (Or.inl rfl)

/-! ## Helper lemmas: the executor loop -/

lemma ipsLoop_files (env : Env) : ∀ (ds : List String) (fs : FS),
    ((ipsLoop env ds fs).1).files = fs.files := by
  intro ds
  induction ds with
  | nil => intro fs; rfl
  | cons d rest ih =>
    intro fs
    by_cases h1 : d = "." ∨ d = ""
    · simpa only [ipsLoop, if_pos h1] using ih fs
    · by_cases h2 : env.mkdirFail (strTrimSuffix d "/") = true
      · simp only [ipsLoop, if_neg h1, if_pos h2]
      · simpa only [ipsLoop, if_neg h1, if_neg h2] using
          ih { fs with dirs := fs.dirs ++ [strTrimSuffix d "/"] }

lemma initProjectStructure_files (env : Env) (plan : ExecutionPlan) (fs : FS) :
    ((initProjectStructure env plan fs).1).files = fs.files := by
  unfold initProjectStructure
  split
  · rfl
  · exact ipsLoop_files env _ fs

lemma executeLoop_get?_frame (env : Env) (j : Nat) :
    ∀ (idxs : List Nat) (plan : ExecutionPlan) (fs : FS) (cps : List Checkpoint),
      (∀ i ∈ idxs, i ≠ j) →
      (executeLoop env idxs plan fs cps).plan.phases.get? j = plan.phases.get? j := by
  intro idxs
  induction idxs with
  | nil => intro plan fs cps _; rfl
  | cons i rest ih =>
    intro plan fs cps hj
    have hij : i ≠ j := hj i (List.mem_cons_self i rest)
    unfold executeLoop
    rcases hg : plan.phases.get? i with _ | phase
    · rfl
    · try dsimp only
      by_cases hdep : areDependenciesMet plan phase = false
      · rw [if_pos hdep]
      · rw [if_neg hdep]
        try dsimp only
        rcases herr : (executePhase env plan i fs).err with _ | e
        · try dsimp only
          rcases hg2 : (executePhase env plan i fs).plan.phases.get? i with _ | p2
          · try dsimp only
            rw [ih _ _ _ (fun x hx => hj x (List.mem_cons_of_mem _ hx))]
            exact executePhase_get?_ne env plan i j fs hij
          · try dsimp only
            rw [ih _ _ _ (fun x hx => hj x (List.mem_cons_of_mem _ hx))]
            rw [setPhaseAt_get?_ne _ i j _ hij]
            exact executePhase_get?_ne env plan i j fs hij
        · try dsimp only
          exact executePhase_get?_ne env plan i j fs hij

lemma executeLoop_manifest_nodup (env : Env) :
    ∀ (idxs : List Nat) (plan : ExecutionPlan) (fs : FS) (cps : List Checkpoint),
      manifestPathsNodup plan.manifest →
      manifestPathsNodup (executeLoop env idxs plan fs cps).plan.manifest := by
  intro idxs
  induction idxs with
  | nil => intro plan fs cps h; exact h
  | cons i rest ih =>
    intro plan fs cps h
    unfold executeLoop
    rcases hg : plan.phases.get? i with _ | phase
    · exact h
    · try dsimp only
      by_cases hdep : areDependenciesMet plan phase = false
      · rw [if_pos hdep]; exact h
      · rw [if_neg hdep]
        try dsimp only
        rcases herr : (executePhase env plan i fs).err with _ | e
        · try dsimp only
          rcases hg2 : (executePhase env plan i fs).plan.phases.get? i with _ | p2
          · exact ih _ _ _ (executePhase_manifest_nodup env plan i fs h)
          · exact ih _ _ _ (executePhase_manifest_nodup env plan i fs h)
        · exact executePhase_manifest_nodup env plan i fs h

lemma executeLoop_files_safe (env : Env) :
    ∀ (idxs : List Nat) (plan : ExecutionPlan) (fs : FS) (cps : List Checkpoint),
      ∀ pc ∈ (executeLoop env idxs plan fs cps).fs.files, pc ∈ fs.files ∨ safePath pc.1 := by
  intro idxs
  induction idxs with
  | nil => intro plan fs cps pc h; exact Or.inl h
  | cons i rest ih =>
    intro plan fs cps pc
    unfold executeLoop
    rcases hg : plan.phases.get? i with _ | phase
    · exact fun hpc => Or.inl hpc
    · try dsimp only
      by_cases hdep : areDependenciesMet plan phase = false
      · rw [if_pos hdep]; exact fun hpc => Or.inl hpc
      · rw [if_neg hdep]
        try dsimp only
        rcases herr : (executePhase env plan i fs).err with _ | e
        · try dsimp only
          rcases hg2 : (executePhase env plan i fs).plan.phases.get? i with _ | p2
          · intro hpc
            rcases ih _ _ _ pc hpc with hin | hs
            · exact executePhase_files_safe env plan i fs pc hin
            · exact Or.inr hs
          · intro hpc
            rcases ih _ _ _ pc hpc with hin | hs
            · exact executePhase_files_safe env plan i fs pc hin
            · exact Or.inr hs
        · intro hpc
          exact executePhase_files_safe env plan i fs pc hpc

lemma executeLoop_status_closure (env : Env) :
    ∀ (idxs : List Nat) (plan : ExecutionPlan) (fs : FS) (cps : List Checkpoint),
      (∀ ph ∈ plan.phases,
        ph.status = PhaseStatus.pending ∨ ph.status = PhaseStatus.inProgress ∨
          ph.status = PhaseStatus.completed) →
      ∀ ph ∈ (executeLoop env idxs plan fs cps).plan.phases,
        ph.status = PhaseStatus.pending ∨ ph.status = PhaseStatus.inProgress ∨
          ph.status = PhaseStatus.completed := by
  intro idxs
  induction idxs with
  | nil => intro plan fs cps h; exact h
  | cons i rest ih =>
    intro plan fs cps h
    unfold executeLoop
    rcases hg : plan.phases.get? i with _ | phase
    · exact h
    · try dsimp only
      by_cases hdep : areDependenciesMet plan phase = false
      · rw [if_pos hdep]; exact h
      · rw [if_neg hdep]
        try dsimp only
        rcases herr : (executePhase env plan i fs).err with _ | e
        · try dsimp only
          have hstep := executePhase_status_closure env plan i fs h
          rcases hg2 : (executePhase env plan i fs).plan.phases.get? i with _ | p2
          · exact ih _ _ _ hstep
          · refine ih _ _ _ ?_
            intro ph hph
            rcases setPhaseAt_mem _ _ _ _ hph with hin | rfl
            · exact hstep ph hin
            · exact Or.inr (Or.inr rfl)
        · exact executePhase_status_closure env plan i fs h

lemma executeLoop_cons_depfail (env : Env) (i : Nat) (rest : List Nat)
    (plan : ExecutionPlan) (fs : FS) (cps : List Checkpoint) (phase : Phase)
    (hg : plan.phases.get? i = some phase)
    (hdep : areDependenciesMet plan phase = false) :
    executeLoop env (i :: rest) plan fs cps
      = { plan := plan, fs := fs, checkpoints := cps
          err := some ("dependencies not met for phase " ++ phase.name) } := by
  unfold executeLoop
  rw [hg]
  try dsimp only
  rw [if_pos hdep]

lemma executeLoop_cons_phasefail (env : Env) (i : Nat) (rest : List Nat)
    (plan : ExecutionPlan) (fs : FS) (cps : List Checkpoint) (phase : Phase) (e : String)
    (hg : plan.phases.get? i = some phase)
    (hdep : ¬ areDependenciesMet plan phase = false)
    (herr : (executePhase env plan i fs).err = some e) :
    executeLoop env (i :: rest) plan fs cps
      = { plan := { (executePhase env plan i fs).plan with
                    state := { (executePhase env plan i fs).plan.state with
                               status := ExecutionStatus.failed
                               failedPhases := (executePhase env plan i fs).plan.state.failedPhases
                                 ++ [(i : Int)] } }
          fs := (executePhase env plan i fs).fs
          checkpoints := cps ++ [loopCheckpoint env plan i]
          err := some ("phase " ++ Nat.repr (i + 1) ++ " failed: " ++ e) } := by
  unfold executeLoop
  rw [hg]
  try dsimp only
  rw [if_neg hdep]
  try dsimp only
  rw [herr]
  rfl

lemma executeLoop_cons_success (env : Env) (i : Nat) (rest : List Nat)
    (plan : ExecutionPlan) (fs : FS) (cps : List Checkpoint) (phase p2 : Phase)
    (hg : plan.phases.get? i = some phase)
    (hdep : ¬ areDependenciesMet plan phase = false)
    (herr : (executePhase env plan i fs).err = none)
    (hg2 : (executePhase env plan i fs).plan.phases.get? i = some p2) :
    executeLoop env (i :: rest) plan fs cps
      = executeLoop env rest
          (setPhaseAt
            { (executePhase env plan i fs).plan with
              state := { (executePhase env plan i fs).plan.state with
                         completedPhases := (executePhase env plan i fs).plan.state.completedPhases
                           ++ [(i : Int)]
                         currentPhase := (i : Int) + 1 } }
            i { p2 with status := PhaseStatus.completed })
          (executePhase env plan i fs).fs
          (cps ++ [loopCheckpoint env plan i]) := by
  conv_lhs => unfold executeLoop
  rw [hg]
  try dsimp only
  rw [if_neg hdep]
  try dsimp only
  rw [herr]
  try dsimp only
  rw [hg2]
  try dsimp only
  rfl

/-- The master structural description of the executor loop over the index
range `[s, s+n)`: some prefix of length `k` of the range succeeds and is
appended to `completedPhases` in order; a successful loop completes the
plan, leaves `failedPhases` untouched and sets `currentPhase` to the end of
the range; a failing loop either stops before mutating `failedPhases`
(dependency error) or appends exactly the failing index `s + k`. -/
lemma executeLoop_range (env : Env) :
    ∀ (n s : Nat) (plan : ExecutionPlan) (fs : FS) (cps : List Checkpoint),
      plan.phases.length = s + n →
      (executeLoop env (List.range' s n) plan fs cps).plan.phases.length
        = plan.phases.length ∧
      (executeLoop env (List.range' s n) plan fs cps).plan.state.startedAt
        = plan.state.startedAt ∧
      ∃ k, k ≤ n ∧
        (executeLoop env (List.range' s n) plan fs cps).plan.state.completedPhases
          = plan.state.completedPhases ++ (List.range' s k).map (Nat.cast : Nat → Int) ∧
        (((executeLoop env (List.range' s n) plan fs cps).err = none ∧ k = n ∧
          (executeLoop env (List.range' s n) plan fs cps).plan.state.failedPhases
            = plan.state.failedPhases ∧
          (executeLoop env (List.range' s n) plan fs cps).plan.state.status
            = ExecutionStatus.completed ∧
          (executeLoop env (List.range' s n) plan fs cps).plan.state.currentPhase
            = (if n = 0 then plan.state.currentPhase else ((s + n : Nat) : Int)))
         ∨ ((executeLoop env (List.range' s n) plan fs cps).err ≠ none ∧
            ((executeLoop env (List.range' s n) plan fs cps).plan.state.failedPhases
               = plan.state.failedPhases
             ∨ (k < n ∧
                (executeLoop env (List.range' s n) plan fs cps).plan.state.failedPhases
                  = plan.state.failedPhases ++ [((s + k : Nat) : Int)])))) := by
  intro n
  induction n with
  | zero =>
    intro s plan fs cps _
    exact ⟨rfl, rfl, 0, Nat.le_refl 0, by simp [executeLoop], Or.inl ⟨rfl, rfl, rfl, rfl,
      by simp [executeLoop]⟩⟩
  | succ n ihn =>
    intro s plan fs cps hlen
    have hs : s < plan.phases.length := by omega
    have hg : plan.phases.get? s = some (plan.phases.get ⟨s, hs⟩) := List.get?_eq_get hs
    rw [List.range'_succ]
    by_cases hdep : areDependenciesMet plan (plan.phases.get ⟨s, hs⟩) = false
    · rw [executeLoop_cons_depfail env s _ plan fs cps _ hg hdep]
      exact ⟨rfl, rfl, 0, by omega, by simp, Or.inr ⟨by simp, Or.inl rfl⟩⟩
    · rcases herr : (executePhase env plan s fs).err with _ | e
      · -- the phase succeeded
        obtain ⟨p2, hg2, _⟩ := executePhase_get?_self env plan s fs _ hg
        rw [executeLoop_cons_success env s _ plan fs cps _ p2 hg hdep herr hg2]
        have hstate := executePhase_state env plan s fs
        have hlen2 := executePhase_length env plan s fs
        set P3 := setPhaseAt
          { (executePhase env plan s fs).plan with
            state := { (executePhase env plan s fs).plan.state with
                       completedPhases := (executePhase env plan s fs).plan.state.completedPhases
                         ++ [(s : Int)]
                       currentPhase := (s : Int) + 1 } }
          s { p2 with status := PhaseStatus.completed } with hP3
        have hP3len : P3.phases.length = plan.phases.length := by
          rw [hP3]; simp [setPhaseAt, hlen2]
        have hP3state : P3.state
            = { plan.state with
                completedPhases := plan.state.completedPhases ++ [(s : Int)]
                currentPhase := (s : Int) + 1 } := by
          rw [hP3]
          simp only [setPhaseAt]
          rw [hstate]
        obtain ⟨L1, L2, k', hk', hc, hrest⟩ :=
          ihn (s + 1) P3 (executePhase env plan s fs).fs
            (cps ++ [loopCheckpoint env plan s]) (by rw [hP3len]; omega)
        refine ⟨?_, ?_, k' + 1, by omega, ?_, ?_⟩
        · rw [L1, hP3len]
        · rw [L2, hP3state]
        · rw [hc, hP3state, List.range'_succ]
          simp [List.append_assoc]
        · rcases hrest with ⟨he, hkn, hf, hst2, hcur⟩ | ⟨he, hf2⟩
          · left
            refine ⟨he, by omega, ?_, hst2, ?_⟩
            · rw [hf, hP3state]
            · rw [hcur, if_neg (Nat.succ_ne_zero n)]
              by_cases hn : n = 0
              · subst hn
                rw [if_pos rfl, hP3state]
                show (s : Int) + 1 = ((s + 1 : Nat) : Int)
                omega
              · rw [if_neg hn]
                show ((s + 1 + n : Nat) : Int) = ((s + (n + 1) : Nat) : Int)
                omega
          · right
            refine ⟨he, ?_⟩
            rcases hf2 with hsame | ⟨hk2, heq2⟩
            · left; rw [hsame, hP3state]
            · right
              refine ⟨by omega, ?_⟩
              rw [heq2, hP3state]
              show plan.state.failedPhases ++ [((s + 1 + k' : Nat) : Int)]
                = plan.state.failedPhases ++ [((s + (k' + 1) : Nat) : Int)]
              congr 2
              omega
      · -- the phase failed
        rw [executeLoop_cons_phasefail env s _ plan fs cps _ e hg hdep herr]
        have hstate := executePhase_state env plan s fs
        refine ⟨executePhase_length env plan s fs, ?_, 0, by omega, ?_,
          Or.inr ⟨by simp, Or.inr ⟨by omega, ?_⟩⟩⟩
        · show (executePhase env plan s fs).plan.state.startedAt = plan.state.startedAt
          rw [hstate]
        · show (executePhase env plan s fs).plan.state.completedPhases
            = plan.state.completedPhases ++ (List.range' s 0).map (Nat.cast : Nat → Int)
          rw [hstate]; simp
        · show (executePhase env plan s fs).plan.state.failedPhases ++ [(s : Int)]
            = plan.state.failedPhases ++ [((s + 0 : Nat) : Int)]
          rw [hstate]
          congr 2

/-! ## Helper lemmas: JSON round trip -/

lemma decodeList_map {α : Type} (enc : α → JValue) (dec : JValue → Option α)
    (h : ∀ x, dec (enc x) = some x) :
    ∀ xs : List α, decodeList dec (xs.map enc) = some xs := by
  intro xs
  induction xs with
  | nil => rfl
  | cons x rest ih => simp [decodeList, h x, ih]

lemma phaseStatus_roundtrip (st : PhaseStatus) :
    phaseStatusOfStr (phaseStatusStr st) = some st := by
  cases st <;> rfl

lemma executionStatus_roundtrip (st : ExecutionStatus) :
    executionStatusOfStr (executionStatusStr st) = some st := by
  cases st <;> rfl

lemma decTask_encTask (t : Task) : decTask (encTask t) = some t := by
  rcases t with ⟨tid, desc, comp, res, terr⟩
  by_cases hr : res = "" <;> by_cases he : terr = "" <;>
    simp [encTask, decTask, jGetStr, jGetBool, jLookup, hr, he]

lemma decPhase_encPhase (p : Phase) : decPhase (encPhase p) = some p := by
  rcases p with ⟨pid, pname, pagent, ptasks, psc, pet, pdeps, pstatus⟩
  simp [encPhase, decPhase, jGetStr, jGetArr, jLookup, encStrList,
    decodeList_map encTask decTask decTask_encTask,
    decodeList_map JValue.jstr decStr (fun _ => rfl),
    phaseStatus_roundtrip]

lemma decState_encState (st : ExecutionState) : decState (encState st) = some st := by
  rcases st with ⟨sstatus, cur, comp, fail, lc, sa, ca⟩
  by_cases hlc : lc = "" <;> cases sa <;> cases ca <;>
    simp [encState, decState, jGetStr, jGetInt, jGetArr, jGetOptInt, jLookup, encIntList, hlc,
      decodeList_map JValue.jint decInt (fun _ => rfl),
      executionStatus_roundtrip]

lemma decFileStructure_enc (m : List (String × List String)) :
    decFileStructure (m.map (fun df => (df.1, encStrList df.2))) = some m := by
  induction m with
  | nil => rfl
  | cons df rest ih =>
    have h2 := decodeList_map JValue.jstr decStr (fun _ => rfl) df.2
    simp only [List.map_cons, decFileStructure, encStrList] at ih ⊢
    rw [h2, ih]

lemma decPlan_encPlan (p : ExecutionPlan) :
    decPlan (encPlan p) = some { p with manifest := none } := by
  rcases p with ⟨pid, ptitle, pdesc, pfs, pphases, pstate, pmani, pca, pua⟩
  by_cases hfs : pfs = [] <;>
    simp [encPlan, decPlan, jGetStr, jGetInt, jGetArr, jGetObj, jLookup, hfs, encFileStructure,
      decFileStructure, decFileStructure_enc,
      decodeList_map encPhase decPhase decPhase_encPhase, decState_encState]

lemma storeGet_set (k : String) (v : JValue) :
    ∀ store : List (String × JValue), jLookup (storeSet store k v) k = some v := by
  intro store
  induction store with
  | nil => simp [storeSet, jLookup]
  | cons kv rest ih =>
    by_cases hk : kv.1 = k
    · simp [storeSet, jLookup, hk]
    · simp [storeSet, jLookup, hk, ih]

/-! ## Facts used to settle the claims -/

lemma Execute_eq (env : Env) (plan : ExecutionPlan) (fs : FS) :
    Execute env plan fs
      = executeLoop env
          (List.range' (executePrep env plan).state.currentPhase.toNat
            ((executePrep env plan).phases.length
              - (executePrep env plan).state.currentPhase.toNat))
          (executePrep env plan) ((initProjectStructure env (executePrep env plan) fs).1)
          [] := rfl

lemma executePrep_currentPhase_toNat (env : Env) (p : ExecutionPlan) :
    (executePrep env p).state.currentPhase.toNat = p.state.currentPhase.toNat := by
  by_cases hneg : p.state.currentPhase < 0
  · rw [executePrep_currentPhase_neg env p hneg]
    omega
  · rw [executePrep_currentPhase_nonneg env p (by omega)]

/-! ## Claims -/

/-- Claim C1 (counterexample): a plan whose first run fails and whose resume
succeeds ends the successful `Execute` with `failedPhases = [0] ≠ ∅`, so a
successful `Execute` does not guarantee an empty `failedPhases`. -/
theorem c1_counterexample :
    (Execute envT (Execute envF plan0 fs0).plan fs0).err = none ∧
    (Execute envT (Execute envF plan0 fs0).plan fs0).plan.state.status
      = ExecutionStatus.completed ∧
    (Execute envT (Execute envF plan0 fs0).plan fs0).plan.state.failedPhases ≠ [] := by
  refine ⟨by decide, by decide, by decide⟩

/-- Claim C1 (amended): for every `Execute` returning without error from an
entry state with `currentPhase ≤ len(phases)` and one `completedPhases`
entry per phase below `currentPhase` (as the executor itself maintains),
the final state has `currentPhase = len(phases)`, `status = completed` and
`len(completedPhases) = len(phases)`; `failedPhases` is exactly its entry
value — empty on a fresh run, but a resume after a recorded failure keeps
the failed index because `Execute` never clears `failedPhases`. -/
theorem c1_amended (env : Env) (plan : ExecutionPlan) (fs : FS)
    (hcur : plan.state.currentPhase ≤ (plan.phases.length : Int))
    (hcomp : plan.state.completedPhases.length = plan.state.currentPhase.toNat)
    (herr : (Execute env plan fs).err = none) :
    (Execute env plan fs).plan.state.currentPhase = (plan.phases.length : Int) ∧
    (Execute env plan fs).plan.state.status = ExecutionStatus.completed ∧
    (Execute env plan fs).plan.state.completedPhases.length = plan.phases.length ∧
    (Execute env plan fs).plan.state.failedPhases = plan.state.failedPhases := by
  have hlenP : (executePrep env plan).phases.length = plan.phases.length := by
    rw [executePrep_phases]
  have hsnat : (executePrep env plan).state.currentPhase.toNat
      = plan.state.currentPhase.toNat := executePrep_currentPhase_toNat env plan
  have hsle : plan.state.currentPhase.toNat ≤ plan.phases.length := by omega
  obtain ⟨L1, L2, k, hk, hc, hrest⟩ :=
    executeLoop_range env
      ((executePrep env plan).phases.length
        - (executePrep env plan).state.currentPhase.toNat)
      (executePrep env plan).state.currentPhase.toNat
      (executePrep env plan)
      ((initProjectStructure env (executePrep env plan) fs).1) []
      (by omega)
  rw [Execute_eq] at herr ⊢
  rcases hrest with ⟨_, hkn, hf, hst, hcur2⟩ | ⟨hne, _⟩
  · refine ⟨?_, hst, ?_, ?_⟩
    · rw [hcur2]
      by_cases hn : (executePrep env plan).phases.length
          - (executePrep env plan).state.currentPhase.toNat = 0
      · rw [if_pos hn]
        by_cases hneg : plan.state.currentPhase < 0
        · rw [executePrep_currentPhase_neg env plan hneg]
          omega
        · rw [executePrep_currentPhase_nonneg env plan (by omega)]
          omega
      · rw [if_neg hn]
        omega
    · rw [hc, executePrep_completedPhases]
      simp
      omega
    · rw [hf, executePrep_failedPhases]
  · exact absurd herr hne

/-- Claim C1 (witness): the amended statement holds on the trivial
one-phase plan with a successful agent. -/
theorem c1_witness :
    plan0.state.currentPhase ≤ (plan0.phases.length : Int) ∧
    plan0.state.completedPhases.length = plan0.state.currentPhase.toNat ∧
    (Execute envT plan0 fs0).err = none ∧
    ((Execute envT plan0 fs0).plan.state.currentPhase = (plan0.phases.length : Int) ∧
     (Execute envT plan0 fs0).plan.state.status = ExecutionStatus.completed ∧
     (Execute envT plan0 fs0).plan.state.completedPhases.length = plan0.phases.length ∧
     (Execute envT plan0 fs0).plan.state.failedPhases = plan0.state.failedPhases) :=
  ⟨by decide, by decide, by decide,
    c1_amended envT plan0 fs0 (by decide) (by decide) (by decide)⟩

/-- Claim C2 (counterexample): after a failed run and a successful resume of
the same plan, index 0 is in both `completedPhases` and `failedPhases`, so
the disjointness invariant does not hold across failure-then-resume. -/
theorem c2_counterexample :
    (0 : Int) ∈ (Execute envT (Execute envF plan0 fs0).plan fs0).plan.state.completedPhases ∧
    (0 : Int) ∈ (Execute envT (Execute envF plan0 fs0).plan fs0).plan.state.failedPhases := by
  exact ⟨by decide, by decide⟩

/-- Claim C2 (amended): within a single `Execute` call started from a fresh
state (`completedPhases = failedPhases = ∅`), the two lists stay disjoint
and every recorded index is a valid phase index; the same holds for the
phase loop started at any fresh-run-reachable intermediate state (every
observable moment of such a run).  Across failure-then-resume the
disjointness fails because `failedPhases` is never cleared. -/
theorem c2_amended :
    (∀ (env : Env) (plan : ExecutionPlan) (fs : FS),
      plan.state.completedPhases = [] → plan.state.failedPhases = [] →
      plan.state.currentPhase ≤ 0 →
      ((∀ x ∈ (Execute env plan fs).plan.state.completedPhases,
          x ∉ (Execute env plan fs).plan.state.failedPhases) ∧
       (∀ x ∈ (Execute env plan fs).plan.state.completedPhases
            ++ (Execute env plan fs).plan.state.failedPhases,
          0 ≤ x ∧ x < (plan.phases.length : Int)))) ∧
    (∀ (env : Env) (n s : Nat) (plan : ExecutionPlan) (fs : FS) (cps : List Checkpoint),
      plan.phases.length = s + n →
      plan.state.completedPhases = (List.range' 0 s).map (Nat.cast : Nat → Int) →
      plan.state.failedPhases = [] →
      ((∀ x ∈ (executeLoop env (List.range' s n) plan fs cps).plan.state.completedPhases,
          x ∉ (executeLoop env (List.range' s n) plan fs cps).plan.state.failedPhases) ∧
       (∀ x ∈ (executeLoop env (List.range' s n) plan fs cps).plan.state.completedPhases
            ++ (executeLoop env (List.range' s n) plan fs cps).plan.state.failedPhases,
          0 ≤ x ∧ x < (plan.phases.length : Int)))) := by
  have main : ∀ (env : Env) (n s : Nat) (plan : ExecutionPlan) (fs : FS) (cps : List Checkpoint),
      plan.phases.length = s + n →
      plan.state.completedPhases = (List.range' 0 s).map (Nat.cast : Nat → Int) →
      plan.state.failedPhases = [] →
      ((∀ x ∈ (executeLoop env (List.range' s n) plan fs cps).plan.state.completedPhases,
          x ∉ (executeLoop env (List.range' s n) plan fs cps).plan.state.failedPhases) ∧
       (∀ x ∈ (executeLoop env (List.range' s n) plan fs cps).plan.state.completedPhases
            ++ (executeLoop env (List.range' s n) plan fs cps).plan.state.failedPhases,
          0 ≤ x ∧ x < (plan.phases.length : Int))) := by
    intro env n s plan fs cps hlen hcomp hfail
    obtain ⟨_, _, k, hk, hc, hrest⟩ := executeLoop_range env n s plan fs cps hlen
    have hcomp2 : (executeLoop env (List.range' s n) plan fs cps).plan.state.completedPhases
        = (List.range' 0 (k + s)).map (Nat.cast : Nat → Int) := by
      have happ : List.range' 0 s ++ List.range' s k = List.range' 0 (k + s) := by
        simpa using List.range'_append 0 s k 1
      rw [hc, hcomp, ← List.map_append, happ]
    have hmem : ∀ x ∈ (executeLoop env (List.range' s n) plan fs cps).plan.state.completedPhases,
        ∃ j : Nat, j < k + s ∧ x = ((j : Nat) : Int) := by
      intro x hx
      rw [hcomp2] at hx
      rcases List.mem_map.mp hx with ⟨j, hj, rfl⟩
      rw [List.mem_range'_1] at hj
      exact ⟨j, by omega, rfl⟩
    have hfailcases :
        (executeLoop env (List.range' s n) plan fs cps).plan.state.failedPhases = []
        ∨ (k < n ∧ (executeLoop env (List.range' s n) plan fs cps).plan.state.failedPhases
            = [((s + k : Nat) : Int)]) := by
      rcases hrest with ⟨_, _, hf, _, _⟩ | ⟨_, hor⟩
      · left; rw [hf, hfail]
      · rcases hor with hf | ⟨hkn, hf⟩
        · left; rw [hf, hfail]
        · right
          refine ⟨hkn, ?_⟩
          rw [hf, hfail]
          rfl
    constructor
    · intro x hx
      rcases hmem x hx with ⟨j, hj, rfl⟩
      rcases hfailcases with hf | ⟨hkn, hf⟩
      · rw [hf]; simp
      · rw [hf]
        intro hmem2
        have : ((j : Nat) : Int) = ((s + k : Nat) : Int) := by simpa using hmem2
        omega
    · intro x hx
      rcases List.mem_append.mp hx with hx | hx
      · rcases hmem x hx with ⟨j, hj, rfl⟩
        constructor
        · omega
        · have : j < plan.phases.length := by omega
          omega
      · rcases hfailcases with hf | ⟨hkn, hf⟩
        · rw [hf] at hx; simp at hx
        · rw [hf] at hx
          have : x = ((s + k : Nat) : Int) := by simpa using hx
          subst this
          constructor
          · omega
          · omega
  constructor
  · intro env plan fs hcomp hfail hcur
    have hs0 : (executePrep env plan).state.currentPhase.toNat = 0 := by
      rw [executePrep_currentPhase_toNat]
      omega
    have hlenP : (executePrep env plan).phases.length = plan.phases.length := by
      rw [executePrep_phases]
    have h := main env plan.phases.length 0 (executePrep env plan)
      ((initProjectStructure env (executePrep env plan) fs).1) [] (by omega)
      (by rw [executePrep_completedPhases, hcomp]; rfl)
      (by rw [executePrep_failedPhases, hfail])
    rw [Execute_eq, hs0, Nat.sub_zero, hlenP]
    rw [hlenP] at h
    exact h
  · exact main

/-- Claim C2 (witness): the invariant holds for a fresh one-phase run. -/
theorem c2_witness :
    plan0.state.completedPhases = [] ∧ plan0.state.failedPhases = [] ∧
    plan0.state.currentPhase ≤ 0 ∧
    ((∀ x ∈ (Execute envT plan0 fs0).plan.state.completedPhases,
        x ∉ (Execute envT plan0 fs0).plan.state.failedPhases) ∧
     (∀ x ∈ (Execute envT plan0 fs0).plan.state.completedPhases
          ++ (Execute envT plan0 fs0).plan.state.failedPhases,
        0 ≤ x ∧ x < (plan0.phases.length : Int))) :=
  ⟨by decide, by decide, by decide,
    c2_amended.1 envT plan0 fs0 (by decide) (by decide) (by decide)⟩

/-- Claim C3 (counterexample): with one extracted file block whose write
fails, the extraction step returns an error, yet `Execute` completes the
plan and returns no error, and nothing is written: an extraction failure is
only a warning, not a phase-level failure. -/
theorem c3_counterexample :
    envW.writeFail "a.py" = true ∧
    (processFileBlocks envW "done" (some (NewProjectManifest "T" ".")) "ph" fs0).err ≠ none ∧
    (Execute envW plan0 fs0).err = none ∧
    (Execute envW plan0 fs0).plan.state.status = ExecutionStatus.completed ∧
    (Execute envW plan0 fs0).fs.files = [] := by
  exact ⟨by decide, by decide, by decide, by decide, by decide⟩

/-- Claim C3 (amended): file-write or command failures during extraction do
not fail the phase.  Whenever the phase's agent is registered and the agent
call itself succeeds, `executePhase` returns no error — the error results
of `processFileBlocks` and `processCommandBlocks` are discarded after a
warning. -/
theorem c3_amended (env : Env) (plan : ExecutionPlan) (i : Nat) (fs : FS) (ph0 : Phase)
    (hg : plan.phases.get? i = some ph0)
    (hagent : env.agents.contains ph0.agent = true)
    (hok : ∀ q, ∃ a, env.agentExec i q = Except.ok a) :
    (executePhase env plan i fs).err = none := by
  unfold executePhase
  rw [hg]
  dsimp only
  have hfalse : ¬ (env.agents.contains ph0.agent = false) := by
    rw [hagent]; simp
  rw [if_neg hfalse]
  obtain ⟨a, ha⟩ := hok (buildPhaseQuery
    (setPhaseAt plan i { ph0 with status := PhaseStatus.inProgress })
    { ph0 with status := PhaseStatus.inProgress })
  rw [ha]

/-- Claim C3 (witness): the amended statement holds on the trivial run. -/
theorem c3_witness :
    plan0.phases.get? 0 = some phase0 ∧
    envT.agents.contains phase0.agent = true ∧
    (∀ q, ∃ a, envT.agentExec 0 q = Except.ok a) ∧
    (executePhase envT plan0 0 fs0).err = none :=
  ⟨by decide, by decide, fun _ => ⟨"done", rfl⟩,
    c3_amended envT plan0 0 fs0 phase0 (by decide) (by decide) (fun _ => ⟨"done", rfl⟩)⟩

lemma executePrep_manifest_nodup (env : Env) (p : ExecutionPlan)
    (h : manifestPathsNodup p.manifest) :
    manifestPathsNodup (executePrep env p).manifest := by
  unfold executePrep
  cases hm : p.manifest with
  | none =>
    by_cases hfs : p.fileStructure ≠ [] <;>
      simp_all [manifestPathsNodup, manifestPaths, NewProjectManifest]
  | some mm =>
    rw [hm] at h
    simpa using h

/-- Claim C4: no path is recorded twice.  (a) `processFileBlocks` on a
manifest with duplicate-free paths keeps them duplicate-free, creates a
duplicate-free list of files, and every created file was absent from the
manifest at entry (recorded paths are rejected, not rewritten);
(b) a whole `Execute` run preserves duplicate-freeness of the manifest's
recorded paths (a fresh run starts from an empty manifest). -/
theorem c4_no_duplicate_paths :
    (∀ (env : Env) (response : String) (m : ProjectManifest) (phaseName : String) (fs : FS),
      (manifestPaths m).Nodup →
      ((∃ m2, (processFileBlocks env response (some m) phaseName fs).manifest = some m2 ∧
          (manifestPaths m2).Nodup) ∧
       (processFileBlocks env response (some m) phaseName fs).filesCreated.Nodup ∧
       (∀ p ∈ (processFileBlocks env response (some m) phaseName fs).filesCreated,
          m.FileExists p = false))) ∧
    (∀ (env : Env) (plan : ExecutionPlan) (fs : FS),
      manifestPathsNodup plan.manifest →
      manifestPathsNodup (Execute env plan fs).plan.manifest) := by
  constructor
  · intro env response m phaseName fs h
    obtain ⟨mm2, ext, e1, e2, e3, e4, e5, e6, e7⟩ :=
      pfbLoop_spec env phaseName (env.fileMatches response) [] m fs
    have hfc : (processFileBlocks env response (some m) phaseName fs).filesCreated = ext := by
      simpa using e2
    refine ⟨⟨mm2, e1, ?_⟩, ?_, ?_⟩
    · rw [e3, List.nodup_append]
      refine ⟨h, e4, ?_⟩
      intro p hp hp2
      have := e5 p hp2
      rw [FileExists_eq_false_iff] at this
      exact this hp
    · rw [hfc]; exact e4
    · rw [hfc]; exact e5
  · intro env plan fs h
    rw [Execute_eq]
    exact executeLoop_manifest_nodup env _ _ _ _ (executePrep_manifest_nodup env plan h)

/-- Claim C4 (witness): the properties hold on a concrete extraction into an
empty manifest and on the trivial run. -/
theorem c4_witness :
    (manifestPaths (NewProjectManifest "T" ".")).Nodup ∧
    ((∃ m2, (processFileBlocks envB "done" (some (NewProjectManifest "T" ".")) "ph" fs0).manifest
        = some m2 ∧ (manifestPaths m2).Nodup) ∧
     (processFileBlocks envB "done" (some (NewProjectManifest "T" ".")) "ph" fs0).filesCreated.Nodup ∧
     (∀ p ∈ (processFileBlocks envB "done" (some (NewProjectManifest "T" ".")) "ph" fs0).filesCreated,
        (NewProjectManifest "T" ".").FileExists p = false)) :=
  ⟨by decide, c4_no_duplicate_paths.1 envB "done" (NewProjectManifest "T" ".") "ph" fs0 (by decide)⟩

lemma executePhase_manifest_safe (env : Env) (plan : ExecutionPlan) (i : Nat) (fs : FS) :
    ∀ mm2, (executePhase env plan i fs).plan.manifest = some mm2 →
      ∀ p ∈ manifestPaths mm2,
        (∃ mm, plan.manifest = some mm ∧ p ∈ manifestPaths mm) ∨ safePath p := by
  unfold executePhase
  split
  · intro mm2 h p hp
    exact Or.inl ⟨mm2, h, hp⟩
  · rename_i ph0 hg
    dsimp only
    split
    · intro mm2 h p hp
      exact Or.inl ⟨mm2, h, hp⟩
    · split
      · intro mm2 h p hp
        exact Or.inl ⟨mm2, h, hp⟩
      · rename_i answer heq
        intro mm2 h p hp
        have h2 : (pfbLoop env ph0.name (env.fileMatches answer) [] plan.manifest fs).manifest
            = some mm2 := h
        cases hm : plan.manifest with
        | none =>
          rw [hm, (pfbLoop_none env ph0.name (env.fileMatches answer) [] fs).1] at h2
          exact absurd h2 (by simp)
        | some mm =>
          rw [hm] at h2
          obtain ⟨mm2', ext, e1, _, e3, _, _, e6, _⟩ :=
            pfbLoop_spec env ph0.name (env.fileMatches answer) [] mm fs
          rw [e1] at h2
          have hmm : mm2' = mm2 := by injection h2
          subst hmm
          rw [e3] at hp
          rcases List.mem_append.mp hp with hin | hin
          · exact Or.inl ⟨mm, rfl, hin⟩
          · exact Or.inr (e6 p hin)

lemma executeLoop_manifest_safe (env : Env) :
    ∀ (idxs : List Nat) (plan : ExecutionPlan) (fs : FS) (cps : List Checkpoint)
      (mm2 : ProjectManifest),
      (executeLoop env idxs plan fs cps).plan.manifest = some mm2 →
      ∀ p ∈ manifestPaths mm2,
        (∃ mm, plan.manifest = some mm ∧ p ∈ manifestPaths mm) ∨ safePath p := by
  intro idxs
  induction idxs with
  | nil => intro plan fs cps mm2 h p hp; exact Or.inl ⟨mm2, h, hp⟩
  | cons i rest ih =>
    intro plan fs cps mm2 h p hp
    revert h
    unfold executeLoop
    rcases hg : plan.phases.get? i with _ | phase
    · intro h
      exact Or.inl ⟨mm2, h, hp⟩
    · try dsimp only
      by_cases hdep : areDependenciesMet plan phase = false
      · rw [if_pos hdep]
        intro h
        exact Or.inl ⟨mm2, h, hp⟩
      · rw [if_neg hdep]
        try dsimp only
        rcases herr : (executePhase env plan i fs).err with _ | e
        · try dsimp only
          rcases hg2 : (executePhase env plan i fs).plan.phases.get? i with _ | p2
          · try dsimp only
            intro h
            rcases ih _ _ _ _ h p hp with ⟨mm1, hmm1, hp1⟩ | hs
            · exact executePhase_manifest_safe env plan i fs mm1 hmm1 p hp1
            · exact Or.inr hs
          · try dsimp only
            intro h
            rcases ih _ _ _ _ h p hp with ⟨mm1, hmm1, hp1⟩ | hs
            · exact executePhase_manifest_safe env plan i fs mm1 hmm1 p hp1
            · exact Or.inr hs
        · try dsimp only
          intro h
          exact executePhase_manifest_safe env plan i fs mm2 h p hp

lemma executePrep_manifest_paths (env : Env) (p : ExecutionPlan) :
    ∀ mm1, (executePrep env p).manifest = some mm1 →
      manifestPaths mm1 = [] ∨ p.manifest = some mm1 := by
  unfold executePrep
  cases hm : p.manifest with
  | none =>
    intro mm1 h
    left
    by_cases hfs : p.fileStructure ≠ [] <;>
      simp_all [NewProjectManifest, manifestPaths] <;>
      subst h <;> rfl
  | some mm =>
    intro mm1 h
    right
    exact h

/-- Claim C5: unsafe paths are never written and never recorded.
(a) every file a whole `Execute` run adds to the filesystem has a cleaned
path that neither starts with ".." nor with "/"; (b) every path
`processFileBlocks` reports as created satisfies the same, whatever the
manifest argument; (c) every path `processFileBlocks` adds to the manifest
satisfies the same (an unsafe path is skipped before `AddFile`); (d) every
path an entire `Execute` run adds to the manifest satisfies the same. -/
theorem c5_unsafe_paths_never_written :
    (∀ (env : Env) (plan : ExecutionPlan) (fs : FS) (p c : String),
      (p, c) ∈ (Execute env plan fs).fs.files →
      (p, c) ∈ fs.files ∨ (strHasPrefix p ".." = false ∧ strHasPrefix p "/" = false)) ∧
    (∀ (env : Env) (response : String) (m : Option ProjectManifest) (phaseName : String)
        (fs : FS) (p : String),
      p ∈ (processFileBlocks env response m phaseName fs).filesCreated →
      strHasPrefix p ".." = false ∧ strHasPrefix p "/" = false) ∧
    (∀ (env : Env) (response : String) (m : Option ProjectManifest) (phaseName : String)
        (fs : FS) (mm2 : ProjectManifest) (p : String),
      (processFileBlocks env response m phaseName fs).manifest = some mm2 →
      p ∈ manifestPaths mm2 →
      (∃ mm, m = some mm ∧ p ∈ manifestPaths mm) ∨
        (strHasPrefix p ".." = false ∧ strHasPrefix p "/" = false)) ∧
    (∀ (env : Env) (plan : ExecutionPlan) (fs : FS) (mm2 : ProjectManifest) (p : String),
      (Execute env plan fs).plan.manifest = some mm2 →
      p ∈ manifestPaths mm2 →
      (∃ mm, plan.manifest = some mm ∧ p ∈ manifestPaths mm) ∨
        (strHasPrefix p ".." = false ∧ strHasPrefix p "/" = false)) := by
  refine ⟨?_, ?_, ?_, ?_⟩
  · intro env plan fs p c hmem
    rw [Execute_eq] at hmem
    rcases executeLoop_files_safe env _ _ _ _ (p, c) hmem with hin | hs
    · left
      rw [initProjectStructure_files] at hin
      exact hin
    · right; exact hs
  · intro env response m phaseName fs p hmem
    cases m with
    | none =>
      rcases (pfbLoop_none env phaseName (env.fileMatches response) [] fs).2.1 p hmem with h | h
      · simp at h
      · exact h
    | some mm =>
      obtain ⟨mm2, ext, _, e2, _, _, _, e6, _⟩ :=
        pfbLoop_spec env phaseName (env.fileMatches response) [] mm fs
      have hfc : (processFileBlocks env response (some mm) phaseName fs).filesCreated = ext := by
        simpa using e2
      rw [hfc] at hmem
      exact e6 p hmem
  · intro env response m phaseName fs mm2 p hman hp
    cases m with
    | none =>
      have h2 : (pfbLoop env phaseName (env.fileMatches response) [] none fs).manifest
          = some mm2 := hman
      rw [(pfbLoop_none env phaseName (env.fileMatches response) [] fs).1] at h2
      exact absurd h2 (by simp)
    | some mm =>
      obtain ⟨mm2', ext, e1, _, e3, _, _, e6, _⟩ :=
        pfbLoop_spec env phaseName (env.fileMatches response) [] mm fs
      have he : (processFileBlocks env response (some mm) phaseName fs).manifest = some mm2' := e1
      rw [he] at hman
      have hmm : mm2' = mm2 := by injection hman
      subst hmm
      rw [e3] at hp
      rcases List.mem_append.mp hp with hin | hin
      · exact Or.inl ⟨mm, rfl, hin⟩
      · exact Or.inr (e6 p hin)
  · intro env plan fs mm2 p hman hp
    rw [Execute_eq] at hman
    rcases executeLoop_manifest_safe env _ _ _ _ mm2 hman p hp with ⟨mm1, hmm1, hp1⟩ | hs
    · rcases executePrep_manifest_paths env plan mm1 hmm1 with hempty | hsame
      · rw [hempty] at hp1
        simp at hp1
      · exact Or.inl ⟨mm1, hsame, hp1⟩
    · exact Or.inr hs

/-- Claim C5 (witness): a concrete run writes `a.py`, which is safe. -/
theorem c5_witness :
    ("a.py", "print(1)") ∈ (Execute envB plan0 fs0).fs.files ∧
    (("a.py", "print(1)") ∈ fs0.files ∨
      (strHasPrefix "a.py" ".." = false ∧ strHasPrefix "a.py" "/" = false)) :=
  ⟨by decide, c5_unsafe_paths_never_written.1 envB plan0 fs0 "a.py" "print(1)" (by decide)⟩

/-- Claim C6: every shell line that `processCommandBlocks` executes contains
no denylist pattern, and a denylisted line is skipped without producing an
error — if every non-empty, non-comment, non-dangerous line runs
successfully, the whole extraction returns no error. -/
theorem c6_dangerous_commands_skipped (env : Env) (response : String) :
    (∀ c ∈ (processCommandBlocks env response).1, isDangerousCommand c = false) ∧
    ((∀ b ∈ env.cmdBlocks response, ∀ l ∈ strSplitOnChar '\n' (strTrim b), goodLine env l) →
      (processCommandBlocks env response).2 = none) := by
  constructor
  · exact (pcbBlocks_spec env (env.cmdBlocks response) []).1 (by simp)
  · exact (pcbBlocks_spec env (env.cmdBlocks response) []).2

/-- Claim C6 (witness): a block containing `rm -rf /` is skipped without
error, and the remaining line runs. -/
theorem c6_witness :
    (∀ b ∈ envC.cmdBlocks "done", ∀ l ∈ strSplitOnChar '\n' (strTrim b), goodLine envC l) ∧
    (∀ c ∈ (processCommandBlocks envC "done").1, isDangerousCommand c = false) ∧
    (processCommandBlocks envC "done").2 = none :=
  ⟨by decide, (c6_dangerous_commands_skipped envC "done").1,
    (c6_dangerous_commands_skipped envC "done").2 (by decide)⟩

lemma executeLoop_startedAt (env : Env) :
    ∀ (idxs : List Nat) (plan : ExecutionPlan) (fs : FS) (cps : List Checkpoint),
      (executeLoop env idxs plan fs cps).plan.state.startedAt = plan.state.startedAt := by
  intro idxs
  induction idxs with
  | nil => intro plan fs cps; rfl
  | cons i rest ih =>
    intro plan fs cps
    unfold executeLoop
    rcases hg : plan.phases.get? i with _ | phase
    · rfl
    · try dsimp only
      by_cases hdep : areDependenciesMet plan phase = false
      · rw [if_pos hdep]
      · rw [if_neg hdep]
        try dsimp only
        rcases herr : (executePhase env plan i fs).err with _ | e
        · try dsimp only
          rcases hg2 : (executePhase env plan i fs).plan.phases.get? i with _ | p2
          · rw [ih]
            show (executePhase env plan i fs).plan.state.startedAt = plan.state.startedAt
            rw [executePhase_state]
          · rw [ih]
            show (executePhase env plan i fs).plan.state.startedAt = plan.state.startedAt
            rw [executePhase_state]
        · show (executePhase env plan i fs).plan.state.startedAt = plan.state.startedAt
          rw [executePhase_state]

lemma executeLoop_completed_mem (env : Env) :
    ∀ (idxs : List Nat) (plan : ExecutionPlan) (fs : FS) (cps : List Checkpoint) (x : Int),
      x ∈ (executeLoop env idxs plan fs cps).plan.state.completedPhases →
      x ∈ plan.state.completedPhases ∨ ∃ i ∈ idxs, x = (i : Int) := by
  intro idxs
  induction idxs with
  | nil => intro plan fs cps x h; exact Or.inl h
  | cons i rest ih =>
    intro plan fs cps x
    unfold executeLoop
    rcases hg : plan.phases.get? i with _ | phase
    · exact fun h => Or.inl h
    · try dsimp only
      by_cases hdep : areDependenciesMet plan phase = false
      · rw [if_pos hdep]; exact fun h => Or.inl h
      · rw [if_neg hdep]
        try dsimp only
        rcases herr : (executePhase env plan i fs).err with _ | e
        · try dsimp only
          rcases hg2 : (executePhase env plan i fs).plan.phases.get? i with _ | p2
          · intro h
            rcases ih _ _ _ _ h with hin | ⟨j, hj, rfl⟩
            · have : x ∈ plan.state.completedPhases ++ [(i : Int)] := by
                rw [← executePhase_state env plan i fs]
                exact hin
              rcases List.mem_append.mp this with h2 | h2
              · exact Or.inl h2
              · right
                exact ⟨i, List.mem_cons_self i rest, by simpa using h2⟩
            · exact Or.inr ⟨j, List.mem_cons_of_mem _ hj, rfl⟩
          · intro h
            rcases ih _ _ _ _ h with hin | ⟨j, hj, rfl⟩
            · have : x ∈ plan.state.completedPhases ++ [(i : Int)] := by
                rw [← executePhase_state env plan i fs]
                exact hin
              rcases List.mem_append.mp this with h2 | h2
              · exact Or.inl h2
              · right
                exact ⟨i, List.mem_cons_self i rest, by simpa using h2⟩
            · exact Or.inr ⟨j, List.mem_cons_of_mem _ hj, rfl⟩
        · intro h
          left
          have : x ∈ (executePhase env plan i fs).plan.state.completedPhases := h
          rw [executePhase_state] at this
          exact this

lemma depEntry_iff (phases : List Phase) (completed : List Int) (d : String) :
    (completed.any fun completedIdx =>
      if completedIdx < 0 then false
      else
        match phases.get? completedIdx.toNat with
        | some completedPhase => completedPhase.id == d || completedPhase.name == d
        | none => false) = true
    ↔ ∃ idx ∈ completed, 0 ≤ idx ∧
        ∃ cp, phases.get? idx.toNat = some cp ∧ (cp.id = d ∨ cp.name = d) := by
  rw [List.any_eq_true]
  constructor
  · rintro ⟨idx, hidx, hf⟩
    by_cases hneg : idx < 0
    · rw [if_pos hneg] at hf
      simp at hf
    · rw [if_neg hneg] at hf
      rcases hg : phases.get? idx.toNat with _ | cp
      · rw [hg] at hf; simp at hf
      · rw [hg] at hf
        exact ⟨idx, hidx, by omega, cp, hg, by simpa using hf⟩
  · rintro ⟨idx, hidx, hpos, cp, hg, hor⟩
    refine ⟨idx, hidx, ?_⟩
    rw [if_neg (by omega), hg]
    simpa using hor

/-- Claim C7: (a) a phase with no dependencies is always runnable; (b) the
dependency check succeeds exactly when every entry matches some completed
phase by id or name; (c) when the check fails for the phase at
`currentPhase`, `Execute` returns the error "dependencies not met for phase
<name>" with the phases and the filesystem untouched (the phase is not
run). -/
theorem c7_dependency_gate :
    (∀ (plan : ExecutionPlan) (phase : Phase),
      phase.dependencies = [] → areDependenciesMet plan phase = true) ∧
    (∀ (completed : List Int) (phases : List Phase) (phase : Phase),
      areDependenciesMetCore completed phases phase = true ↔
        ∀ d ∈ phase.dependencies, ∃ idx ∈ completed, 0 ≤ idx ∧
          ∃ cp, phases.get? idx.toNat = some cp ∧ (cp.id = d ∨ cp.name = d)) ∧
    (∀ (env : Env) (plan : ExecutionPlan) (fs : FS) (i : Nat) (ph : Phase),
      0 ≤ plan.state.currentPhase →
      plan.state.currentPhase.toNat = i →
      plan.phases.get? i = some ph →
      areDependenciesMet plan ph = false →
      ((Execute env plan fs).err = some ("dependencies not met for phase " ++ ph.name) ∧
       (Execute env plan fs).plan.phases = plan.phases ∧
       (Execute env plan fs).fs.files = fs.files)) := by
  refine ⟨?_, ?_, ?_⟩
  · intro plan phase h
    unfold areDependenciesMet areDependenciesMetCore
    rw [if_pos (by simp [h])]
  · intro completed phases phase
    unfold areDependenciesMetCore
    by_cases hE : phase.dependencies.isEmpty = true
    · rw [if_pos hE]
      have : phase.dependencies = [] := by simpa using hE
      simp [this]
    · rw [if_neg hE]
      rw [List.all_eq_true]
      constructor
      · intro h d hd
        exact (depEntry_iff phases completed d).mp (h d hd)
      · intro h d hd
        exact (depEntry_iff phases completed d).mpr (h d hd)
  · intro env plan fs i ph hpos htoNat hg hdep
    have hsnat : (executePrep env plan).state.currentPhase.toNat = i := by
      rw [executePrep_currentPhase_toNat, htoNat]
    have hgP : (executePrep env plan).phases.get? i = some ph := by
      rw [executePrep_phases]; exact hg
    have hdepP : areDependenciesMet (executePrep env plan) ph = false := by
      unfold areDependenciesMet
      rw [executePrep_completedPhases, executePrep_phases]
      exact hdep
    have hlt : i < plan.phases.length := by
      rcases List.get?_eq_some.mp hg with ⟨h, _⟩
      exact h
    have hn : (executePrep env plan).phases.length
        - (executePrep env plan).state.currentPhase.toNat
        = ((executePrep env plan).phases.length
            - (executePrep env plan).state.currentPhase.toNat - 1) + 1 := by
      have : (executePrep env plan).phases.length = plan.phases.length := by
        rw [executePrep_phases]
      omega
    rw [Execute_eq, hn, hsnat, List.range'_succ,
      executeLoop_cons_depfail env i _ (executePrep env plan)
        ((initProjectStructure env (executePrep env plan) fs).1) [] ph hgP hdepP]
    refine ⟨rfl, ?_, ?_⟩
    · exact executePrep_phases env plan
    · exact initProjectStructure_files env (executePrep env plan) fs

/-- Claim C7 (witness): a plan whose only phase depends on the unknown id
`"x"` is rejected with the documented error and nothing is run. -/
theorem c7_witness :
    (0 : Int) ≤ planD.state.currentPhase ∧
    planD.state.currentPhase.toNat = 0 ∧
    planD.phases.get? 0 = some { phase0 with dependencies := ["x"] } ∧
    areDependenciesMet planD { phase0 with dependencies := ["x"] } = false ∧
    ((Execute envT planD fs0).err
      = some ("dependencies not met for phase " ++ ({ phase0 with dependencies := ["x"] } : Phase).name) ∧
     (Execute envT planD fs0).plan.phases = planD.phases ∧
     (Execute envT planD fs0).fs.files = fs0.files) :=
  ⟨by decide, by decide, by decide, by decide,
    c7_dependency_gate.2.2 envT planD fs0 0 { phase0 with dependencies := ["x"] }
      (by decide) (by decide) (by decide) (by decide)⟩

/-- Claim C8: on a resume, `startedAt` is preserved; it is assigned (to the
current clock) exactly on a first run; no phase below the entry
`currentPhase` is touched; and every index added to `completedPhases` by
the run is at least the entry `currentPhase` (execution restarts at
`currentPhase`). -/
theorem c8_resume_semantics (env : Env) (plan : ExecutionPlan) (fs : FS) :
    (∀ t, plan.state.startedAt = some t →
      (Execute env plan fs).plan.state.startedAt = some t) ∧
    (plan.state.startedAt = none →
      (Execute env plan fs).plan.state.startedAt = some env.now) ∧
    (∀ j : Nat, (j : Int) < plan.state.currentPhase →
      (Execute env plan fs).plan.phases.get? j = plan.phases.get? j) ∧
    (∀ x ∈ (Execute env plan fs).plan.state.completedPhases,
      x ∈ plan.state.completedPhases ∨ plan.state.currentPhase ≤ x) := by
  refine ⟨?_, ?_, ?_, ?_⟩
  · intro t ht
    rw [Execute_eq, executeLoop_startedAt]
    exact executePrep_startedAt_some env plan t ht
  · intro ht
    rw [Execute_eq, executeLoop_startedAt]
    exact executePrep_startedAt_none env plan ht
  · intro j hj
    have hpos : 0 ≤ plan.state.currentPhase := by omega
    have hsnat : (executePrep env plan).state.currentPhase.toNat
        = plan.state.currentPhase.toNat := executePrep_currentPhase_toNat env plan
    rw [Execute_eq, executeLoop_get?_frame, executePrep_phases]
    intro i hi
    rw [List.mem_range'_1] at hi
    rw [hsnat] at hi
    omega
  · intro x hx
    rw [Execute_eq] at hx
    rcases executeLoop_completed_mem env _ _ _ _ x hx with hin | ⟨i, hi, rfl⟩
    · left
      rw [executePrep_completedPhases] at hin
      exact hin
    · right
      rw [List.mem_range'_1, executePrep_currentPhase_toNat] at hi
      omega

/-- Claim C8 (witness): resuming a two-phase plan at `currentPhase = 1`
leaves `startedAt` and phase 0 untouched. -/
theorem c8_witness :
    planR.state.startedAt = some 3 ∧
    ((0 : Int) < planR.state.currentPhase) ∧
    (Execute envT planR fs0).plan.state.startedAt = some 3 ∧
    (Execute envT planR fs0).plan.phases.get? 0 = planR.phases.get? 0 :=
  ⟨by decide, by decide,
    (c8_resume_semantics envT planR fs0).1 3 (by decide),
    (c8_resume_semantics envT planR fs0).2.2.1 0 (by decide)⟩

/-- Claim C9: saving a plan and loading it back under its id yields the
original plan in every field except the runtime-only `manifest`, which is
excluded from the serialisation (`json:"-"`) and comes back nil. -/
theorem c9_save_load_roundtrip (store : List (String × JValue)) (plan : ExecutionPlan) :
    LoadPlanState (SavePlanState store plan) plan.id = some { plan with manifest := none } := by
  unfold LoadPlanState SavePlanState
  rw [storeGet_set]
  exact decPlan_encPlan plan

/-- Claim C10: the executor never writes the `failed` (or `skipped`) status
into a phase: (a) a run of `Execute` keeps every phase's status in
`{pending, in_progress, completed}` whenever the entry statuses are; (b)
`executePhase` always leaves the phase it ran with status `in_progress`
(on success `Execute` itself upgrades it to `completed`), so a failing
phase stays `in_progress`. -/
theorem c10_no_failed_phase_status :
    (∀ (env : Env) (plan : ExecutionPlan) (fs : FS),
      (∀ ph ∈ plan.phases, ph.status ≠ PhaseStatus.failed ∧ ph.status ≠ PhaseStatus.skipped) →
      ∀ ph ∈ (Execute env plan fs).plan.phases,
        ph.status = PhaseStatus.pending ∨ ph.status = PhaseStatus.inProgress ∨
          ph.status = PhaseStatus.completed) ∧
    (∀ (env : Env) (plan : ExecutionPlan) (i : Nat) (fs : FS) (ph0 : Phase),
      plan.phases.get? i = some ph0 →
      ∃ ph, (executePhase env plan i fs).plan.phases.get? i = some ph ∧
        ph.status = PhaseStatus.inProgress) := by
  constructor
  · intro env plan fs h
    rw [Execute_eq]
    apply executeLoop_status_closure
    rw [executePrep_phases]
    intro ph hph
    rcases h ph hph with ⟨h1, h2⟩
    cases hst : ph.status
    · exact Or.inl rfl
    · exact Or.inr (Or.inl rfl)
    · exact Or.inr (Or.inr rfl)
    · exact absurd hst h1
    · exact absurd hst h2
  · intro env plan i fs ph0 hg
    exact executePhase_get?_self env plan i fs ph0 hg

/-- Claim C10 (witness): on the failing one-phase run, the final status set
is within `{pending, in_progress, completed}`, and the failed phase is left
`in_progress`. -/
theorem c10_witness :
    (∀ ph ∈ plan0.phases,
      ph.status ≠ PhaseStatus.failed ∧ ph.status ≠ PhaseStatus.skipped) ∧
    (∀ ph ∈ (Execute envF plan0 fs0).plan.phases,
      ph.status = PhaseStatus.pending ∨ ph.status = PhaseStatus.inProgress ∨
        ph.status = PhaseStatus.completed) ∧
    plan0.phases.get? 0 = some phase0 ∧
    (∃ ph, (executePhase envF plan0 0 fs0).plan.phases.get? 0 = some ph ∧
      ph.status = PhaseStatus.inProgress) :=
  ⟨by decide, c10_no_failed_phase_status.1 envF plan0 fs0 (by decide), by decide,
    c10_no_failed_phase_status.2 envF plan0 0 fs0 phase0 (by decide)⟩

end QuantumFlow
